import Mathlib

/-!
# Verification of the CDT layer-peeling and preprocessing utilities

A shallow embedding of the constrained-Delaunay-triangulation support code:
the layer peeler `PeelLayer` (set and overlap-aware variants), the depth
calculators `CalculateTriangleDepths`, the edge extractor
`extractEdgesFromTriangles` (all from `CDT/include/CDT.hpp`), the duplicate
handling utilities `FindDuplicates`, `RemoveDuplicates`, `RemapEdges`,
`RemoveDuplicatesAndRemapEdges` (from `CDT/include/CDT.h`), and the vertex and
edge insertion drivers of `CDT/include/Triangulation.h`.

Container conventions used by the embedding: C++ `std::vector` becomes `List`,
`std::stack` becomes a `List` whose head is the stack top, unordered sets
become `Finset`, the map `unordered_map<TriInd, LayerDepth>` becomes a
`Finset (ℕ × ℕ)` of key/value pairs with at most one pair per key, and the
map-of-sets `unordered_map<LayerDepth, TriIndUSet>` becomes a
`Finset (ℕ × ℕ)` of (depth, triangle) pairs.  Where iteration order of an
unordered container feeds a stack, the embedding fixes the (unspecified)
order to be ascending.
-/

namespace CDTSpec

/-- Modelled from the spec: `CDTUtils.h` is not under `src/`.  The spec (§4.6)
initialises depths to `∞`; the code uses `std::numeric_limits<LayerDepth>::max()`.
We model `LayerDepth` as `ℕ` and its maximum as the 16-bit maximum. -/
def layerDepthMax : ℕ := 65535

/-- An edge is an ordered pair of vertex indices. -/
abbrev Edge := ℕ × ℕ

/-- Modelled from the spec (§3): "An unordered pair of vertex indices,
canonicalized so that the lower index is first" — the `Edge` constructor of the
absent `CDTUtils.h`. -/
def mkEdge (a b : ℕ) : Edge := (min a b, max a b)

/-- Modelled from the spec (§3): a triangle record holds three vertex indices
`v0 v1 v2` and three neighbor slots `n0 n1 n2`; slot `n i` is the triangle
sharing the edge opposite vertex `v i`, and a slot may be empty
(the `noNeighbor` sentinel, modelled by `none`). -/
structure Triangle where
  v0 : ℕ
  v1 : ℕ
  v2 : ℕ
  n0 : Option ℕ
  n1 : Option ℕ
  n2 : Option ℕ
deriving DecidableEq, Repr

/-- Vertex of a triangle by corner index (`t.vertices[i]`). -/
def Triangle.vert (t : Triangle) : Fin 3 → ℕ
  | 0 => t.v0
  | 1 => t.v1
  | 2 => t.v2

/-- Neighbor slot of a triangle (`t.neighbors[j]`). -/
def Triangle.nbr (t : Triangle) : Fin 3 → Option ℕ
  | 0 => t.n0
  | 1 => t.n1
  | 2 => t.n2

/-- Modelled from the spec: `ccw(i) = (i + 1) mod 3` of the absent `CDTUtils.h`. -/
def ccw (i : Fin 3) : Fin 3 := i + 1

/-- Modelled from the spec: `cw(i) = (i + 2) mod 3` of the absent `CDTUtils.h`. -/
def cw (i : Fin 3) : Fin 3 := i + 2

/-- Modelled from the spec (§3): under the spec's slot convention, the neighbor
opposite vertex `i` — the one across the edge `(v (i+1), v (i+2))` — sits in
slot `i`, so `opoNbr` is the identity. -/
def opoNbr (i : Fin 3) : Fin 3 := i

/-- Placeholder triangle used when an index addresses no triangle. -/
def defaultTri : Triangle := ⟨0, 0, 0, none, none, none⟩

/-- The edge opposite corner `i`: `Edge(t.vertices[ccw(i)], t.vertices[cw(i)])`
(CDT.hpp lines 69 and 107). -/
def oppositeEdge (t : Triangle) (i : Fin 3) : Edge :=
  mkEdge (t.vert (ccw i)) (t.vert (cw i))

/-- Total read of the depth array (`triDepths[k]`). -/
def dget (l : List ℕ) (k : ℕ) : ℕ := l.getD k 0

theorem dget_set_self {l : List ℕ} {i a : ℕ} (h : i < l.length) :
    dget (l.set i a) i = a := by
  simp [dget, List.getD_eq_getElem?_getD, List.getElem?_set_self', h]

theorem dget_set_ne {l : List ℕ} {i k a : ℕ} (h : k ≠ i) :
    dget (l.set i a) k = dget l k := by
  simp [dget, List.getD_eq_getElem?_getD, List.getElem?_set_ne (Ne.symm h)]

theorem dget_oob {l : List ℕ} {k : ℕ} (h : l.length ≤ k) : dget l k = 0 := by
  simp [dget, List.getD_eq_getElem?_getD, List.getElem?_eq_none h]

theorem dget_set_cases (l : List ℕ) (i a k : ℕ) :
    dget (l.set i a) k = dget l k ∨ (k = i ∧ k < l.length ∧ dget (l.set i a) k = a) := by
  rcases eq_or_ne k i with rfl | hne
  · rcases lt_or_ge k l.length with hk | hk
    · exact Or.inr ⟨rfl, hk, dget_set_self hk⟩
    · rw [List.set_eq_of_length_le hk]
      exact Or.inl rfl
  · exact Or.inl (dget_set_ne hne)

/-! ## The set-returning `PeelLayer` (CDT.hpp:89-120) -/

/-- Body of the `for(Index i(0); i < Index(3); ++i)` loop of the set-returning
`PeelLayer` (CDT.hpp:105-117): examine neighbor slot `opoNbr i` of triangle
`t`; skip absent neighbors and neighbors at depth `≤ layerDepth`; a neighbor
behind a fixed edge goes into `behindBoundary`, any other neighbor is pushed
onto the seed stack. -/
def peelNbrStep (fe : Finset Edge) (ld : ℕ) (depths : List ℕ) (t : Triangle)
    (i : Fin 3) (sb : List ℕ × Finset ℕ) : List ℕ × Finset ℕ :=
  match t.nbr (opoNbr i) with
  | none => sb
  | some iN =>
    if dget depths iN ≤ ld then sb
    else if oppositeEdge t i ∈ fe then (sb.1, insert iN sb.2)
    else (iN :: sb.1, sb.2)

/-- One iteration of the `while(!seeds.empty())` loop of the set-returning
`PeelLayer` (CDT.hpp:98-118): pop `iT`, set `triDepths[iT] = layerDepth`,
erase `iT` from `behindBoundary`, then process the three neighbor slots.
Returns the new stack, depths and behind-boundary set. -/
def peelStep (tris : List Triangle) (fe : Finset Edge) (ld : ℕ)
    (iT : ℕ) (rest : List ℕ) (depths : List ℕ) (behind : Finset ℕ) :
    List ℕ × List ℕ × Finset ℕ :=
  let depths1 := depths.set iT ld
  let t := tris.getD iT defaultTri
  let sb := peelNbrStep fe ld depths1 t 2
      (peelNbrStep fe ld depths1 t 1
        (peelNbrStep fe ld depths1 t 0 (rest, behind.erase iT)))
  (sb.1, depths1, sb.2)

/-- Measure: how many recorded depths still exceed the layer depth. -/
def deepCount (ld : ℕ) (depths : List ℕ) : ℕ :=
  ((Finset.range depths.length).filter (fun k => ld < dget depths k)).card

/-- Measure: how many stack entries address triangles already at depth
`≤ layerDepth`. -/
def staleCount (ld : ℕ) (depths : List ℕ) (stack : List ℕ) : ℕ :=
  stack.countP (fun v => dget depths v ≤ ld)

/-- Setting an entry to the layer depth never increases `deepCount`. -/
theorem deepCount_set_le (ld : ℕ) (depths : List ℕ) (iT : ℕ) :
    deepCount ld (depths.set iT ld) ≤ deepCount ld depths := by
  apply Finset.card_le_card
  intro k hk
  simp only [deepCount, Finset.mem_filter, Finset.mem_range, List.length_set] at hk ⊢
  obtain ⟨hk1, hk2⟩ := hk
  refine ⟨hk1, ?_⟩
  rcases eq_or_ne k iT with rfl | hne
  · rw [dget_set_self hk1] at hk2
    exact absurd hk2 (lt_irrefl ld)
  · rwa [dget_set_ne hne] at hk2

/-- Setting a deep entry to the layer depth strictly decreases `deepCount`. -/
theorem deepCount_set_lt (ld : ℕ) (depths : List ℕ) (iT : ℕ)
    (h : ld < dget depths iT) :
    deepCount ld (depths.set iT ld) < deepCount ld depths := by
  have hiT : iT < depths.length := by
    by_contra hc
    rw [dget_oob (le_of_not_lt hc)] at h
    exact absurd h (Nat.not_lt_zero ld)
  apply Finset.card_lt_card
  constructor
  · intro k hk
    simp only [deepCount, Finset.mem_filter, Finset.mem_range, List.length_set] at hk ⊢
    obtain ⟨hk1, hk2⟩ := hk
    refine ⟨hk1, ?_⟩
    rcases eq_or_ne k iT with rfl | hne
    · rw [dget_set_self hk1] at hk2
      exact absurd hk2 (lt_irrefl ld)
    · rwa [dget_set_ne hne] at hk2
  · intro hsub
    have hmem : iT ∈ (Finset.range depths.length).filter
        (fun k => ld < dget depths k) := by
      simp only [Finset.mem_filter, Finset.mem_range]
      exact ⟨hiT, h⟩
    have := hsub hmem
    simp only [Finset.mem_filter, Finset.mem_range, List.length_set] at this
    rw [dget_set_self hiT] at this
    exact absurd this.2 (lt_irrefl ld)

/-- Setting an already-shallow entry to the layer depth keeps `deepCount`. -/
theorem deepCount_set_eq (ld : ℕ) (depths : List ℕ) (iT : ℕ)
    (h : dget depths iT ≤ ld) :
    deepCount ld (depths.set iT ld) = deepCount ld depths := by
  unfold deepCount
  rw [List.length_set]
  congr 1
  apply Finset.filter_congr
  intro k hk
  simp only [Finset.mem_range] at hk
  rcases eq_or_ne k iT with rfl | hne
  · rw [dget_set_self hk]
    simp [lt_irrefl, Nat.not_lt.mpr h]
  · rw [dget_set_ne hne]

/-- `peelNbrStep` pushes only triangles whose depth exceeds the layer depth, so
it preserves any count of stack entries falsified by deep triangles. -/
theorem peelNbrStep_countP (fe : Finset Edge) (ld : ℕ) (depths : List ℕ)
    (t : Triangle) (i : Fin 3) (sb : List ℕ × Finset ℕ) (p : ℕ → Bool)
    (hp : ∀ v, ld < dget depths v → p v = false) :
    (peelNbrStep fe ld depths t i sb).1.countP p = sb.1.countP p := by
  unfold peelNbrStep
  rcases hnbr : t.nbr (opoNbr i) with _ | iN
  · rfl
  · simp only
    split
    · rfl
    · split
      · rfl
      · rename_i hdeep _
        rw [List.countP_cons, hp iN (lt_of_not_le hdeep)]
        simp

/-- The stack after processing the three neighbor slots has the old stack as a
suffix. -/
theorem peelNbrStep_suffix (fe : Finset Edge) (ld : ℕ) (depths : List ℕ)
    (t : Triangle) (i : Fin 3) (sb : List ℕ × Finset ℕ) :
    sb.1.IsSuffix (peelNbrStep fe ld depths t i sb).1 := by
  unfold peelNbrStep
  rcases t.nbr (opoNbr i) with _ | iN
  · exact List.suffix_refl _
  · simp only
    split
    · exact List.suffix_refl _
    · split
      · exact List.suffix_refl _
      · exact List.suffix_cons _ _

/-- The set-returning `PeelLayer` (CDT.hpp:89-120): pop seeds until the stack
is empty, assigning `layerDepth` to every popped triangle and collecting, in
`behindBoundary`, the triangles reached across fixed edges.  `seeds` is the
stack (head = top), `depths` the depth array, `behind` the accumulator
(`TriIndUSet behindBoundary`, initially empty). -/
def PeelLayer (tris : List Triangle) (fe : Finset Edge) (ld : ℕ) :
    List ℕ → List ℕ → Finset ℕ → List ℕ × Finset ℕ
  | [], depths, behind => (depths, behind)
  | iT :: rest, depths, behind =>
    let s := peelStep tris fe ld iT rest depths behind
    PeelLayer tris fe ld s.1 s.2.1 s.2.2
termination_by stack depths _ => (deepCount ld depths, staleCount ld depths stack)
decreasing_by
  rcases le_or_lt (dget depths iT) ld with hle | hlt
  · apply Prod.Lex.right'
    · exact le_of_eq (deepCount_set_eq ld depths iT hle)
    · show staleCount ld (depths.set iT ld) _ < staleCount ld depths (iT :: rest)
      unfold staleCount peelStep
      simp only
      rw [peelNbrStep_countP, peelNbrStep_countP, peelNbrStep_countP]
      · have hrest : List.countP (fun v => decide (dget (depths.set iT ld) v ≤ ld)) rest
            = List.countP (fun v => decide (dget depths v ≤ ld)) rest := by
          apply List.countP_congr
          intro v _
          rcases dget_set_cases depths iT ld v with h | ⟨rfl, _, h⟩
          · rw [h]
          · rw [h]
            simp [hle]
        rw [hrest, List.countP_cons]
        have : decide (dget depths iT ≤ ld) = true := by simpa using hle
        simp [this]
      all_goals
        intro v hv
        simp [Nat.not_le.mpr hv]
  · apply Prod.Lex.left
    exact deepCount_set_lt ld depths iT hlt

/-! ## The overlap-aware `PeelLayer` (CDT.hpp:50-87) -/

/-- Upsert into a key/value pair set: `behindBoundary[iN] = v` on an
`unordered_map` overwrites any previous value for the key. -/
def mapUpsert (m : Finset (ℕ × ℕ)) (k v : ℕ) : Finset (ℕ × ℕ) :=
  insert (k, v) (m.filter (fun p => p.1 ≠ k))

/-- Erase a key from a key/value pair set (`unordered_map::erase`). -/
def mapEraseKey (m : Finset (ℕ × ℕ)) (k : ℕ) : Finset (ℕ × ℕ) :=
  m.filter (fun p => p.1 ≠ k)

/-- Body of the neighbor loop of the overlap-aware `PeelLayer`
(CDT.hpp:67-84): as in the set variant, but a neighbor behind a fixed edge is
recorded in the `behindBoundary` map with target depth `layerDepth + 1` when
`overlapCount` has no entry for the edge and
`layerDepth + overlapCount[e] + 1` when it has one. -/
def peelNbrStepOv (fe : Finset Edge) (ov : List (Edge × ℕ)) (ld : ℕ)
    (depths : List ℕ) (t : Triangle) (i : Fin 3)
    (sb : List ℕ × Finset (ℕ × ℕ)) : List ℕ × Finset (ℕ × ℕ) :=
  match t.nbr (opoNbr i) with
  | none => sb
  | some iN =>
    if dget depths iN ≤ ld then sb
    else if oppositeEdge t i ∈ fe then
      (sb.1, mapUpsert sb.2 iN
        (match List.lookup (oppositeEdge t i) ov with
          | none => ld + 1
          | some cnt => ld + cnt + 1))
    else (iN :: sb.1, sb.2)

/-- One iteration of the `while(!seeds.empty())` loop of the overlap-aware
`PeelLayer` (CDT.hpp:60-85): pop `iT`, set `triDepths[iT] = layerDepth`,
erase key `iT` from the `behindBoundary` map, process the three neighbor
slots. -/
def peelStepOv (tris : List Triangle) (fe : Finset Edge) (ov : List (Edge × ℕ))
    (ld : ℕ) (iT : ℕ) (rest : List ℕ) (depths : List ℕ)
    (behind : Finset (ℕ × ℕ)) : List ℕ × List ℕ × Finset (ℕ × ℕ) :=
  let depths1 := depths.set iT ld
  let t := tris.getD iT defaultTri
  let sb := peelNbrStepOv fe ov ld depths1 t 2
      (peelNbrStepOv fe ov ld depths1 t 1
        (peelNbrStepOv fe ov ld depths1 t 0 (rest, mapEraseKey behind iT)))
  (sb.1, depths1, sb.2)

theorem peelNbrStepOv_countP (fe : Finset Edge) (ov : List (Edge × ℕ)) (ld : ℕ)
    (depths : List ℕ) (t : Triangle) (i : Fin 3)
    (sb : List ℕ × Finset (ℕ × ℕ)) (p : ℕ → Bool)
    (hp : ∀ v, ld < dget depths v → p v = false) :
    (peelNbrStepOv fe ov ld depths t i sb).1.countP p = sb.1.countP p := by
  unfold peelNbrStepOv
  rcases hnbr : t.nbr (opoNbr i) with _ | iN
  · rfl
  · simp only
    split
    · rfl
    · split
      · rfl
      · rename_i hdeep _
        rw [List.countP_cons, hp iN (lt_of_not_le hdeep)]
        simp

theorem peelNbrStepOv_suffix (fe : Finset Edge) (ov : List (Edge × ℕ)) (ld : ℕ)
    (depths : List ℕ) (t : Triangle) (i : Fin 3)
    (sb : List ℕ × Finset (ℕ × ℕ)) :
    sb.1.IsSuffix (peelNbrStepOv fe ov ld depths t i sb).1 := by
  unfold peelNbrStepOv
  rcases t.nbr (opoNbr i) with _ | iN
  · exact List.suffix_refl _
  · simp only
    split
    · exact List.suffix_refl _
    · split
      · exact List.suffix_refl _
      · exact List.suffix_cons _ _

/-- The overlap-aware `PeelLayer` (CDT.hpp:50-87): pop seeds until the stack is
empty, assigning `layerDepth` to every popped triangle; triangles reached
across fixed edges are recorded in the `behindBoundary` map together with the
target depth of the layer they seed. -/
def PeelLayerOv (tris : List Triangle) (fe : Finset Edge)
    (ov : List (Edge × ℕ)) (ld : ℕ) :
    List ℕ → List ℕ → Finset (ℕ × ℕ) → List ℕ × Finset (ℕ × ℕ)
  | [], depths, behind => (depths, behind)
  | iT :: rest, depths, behind =>
    let s := peelStepOv tris fe ov ld iT rest depths behind
    PeelLayerOv tris fe ov ld s.1 s.2.1 s.2.2
termination_by stack depths _ => (deepCount ld depths, staleCount ld depths stack)
decreasing_by
  rcases le_or_lt (dget depths iT) ld with hle | hlt
  · apply Prod.Lex.right'
    · exact le_of_eq (deepCount_set_eq ld depths iT hle)
    · show staleCount ld (depths.set iT ld) _ < staleCount ld depths (iT :: rest)
      unfold staleCount peelStepOv
      simp only
      rw [peelNbrStepOv_countP, peelNbrStepOv_countP, peelNbrStepOv_countP]
      · have hrest : List.countP (fun v => decide (dget (depths.set iT ld) v ≤ ld)) rest
            = List.countP (fun v => decide (dget depths v ≤ ld)) rest := by
          apply List.countP_congr
          intro v _
          rcases dget_set_cases depths iT ld v with h | ⟨rfl, _, h⟩
          · rw [h]
          · rw [h]
            simp [hle]
        rw [hrest, List.countP_cons]
        have : decide (dget depths iT ≤ ld) = true := by simpa using hle
        simp [this]
      all_goals
        intro v hv
        simp [Nat.not_le.mpr hv]
  · apply Prod.Lex.left
    exact deepCount_set_lt ld depths iT hlt

/-! ## Structural lemmas about the two peelers -/

theorem PeelLayer_nil (tris : List Triangle) (fe : Finset Edge) (ld : ℕ)
    (depths : List ℕ) (behind : Finset ℕ) :
    PeelLayer tris fe ld [] depths behind = (depths, behind) := by
  rw [PeelLayer]

theorem PeelLayer_cons (tris : List Triangle) (fe : Finset Edge) (ld iT : ℕ)
    (rest depths : List ℕ) (behind : Finset ℕ) :
    PeelLayer tris fe ld (iT :: rest) depths behind =
      PeelLayer tris fe ld (peelStep tris fe ld iT rest depths behind).1
        (peelStep tris fe ld iT rest depths behind).2.1
        (peelStep tris fe ld iT rest depths behind).2.2 := by
  rw [PeelLayer]

theorem PeelLayerOv_nil (tris : List Triangle) (fe : Finset Edge)
    (ov : List (Edge × ℕ)) (ld : ℕ) (depths : List ℕ) (behind : Finset (ℕ × ℕ)) :
    PeelLayerOv tris fe ov ld [] depths behind = (depths, behind) := by
  rw [PeelLayerOv]

theorem PeelLayerOv_cons (tris : List Triangle) (fe : Finset Edge)
    (ov : List (Edge × ℕ)) (ld iT : ℕ) (rest depths : List ℕ)
    (behind : Finset (ℕ × ℕ)) :
    PeelLayerOv tris fe ov ld (iT :: rest) depths behind =
      PeelLayerOv tris fe ov ld (peelStepOv tris fe ov ld iT rest depths behind).1
        (peelStepOv tris fe ov ld iT rest depths behind).2.1
        (peelStepOv tris fe ov ld iT rest depths behind).2.2 := by
  rw [PeelLayerOv]

theorem PeelLayer_length (tris : List Triangle) (fe : Finset Edge) (ld : ℕ)
    (stack depths : List ℕ) (behind : Finset ℕ) :
    (PeelLayer tris fe ld stack depths behind).1.length = depths.length := by
  induction stack, depths, behind using PeelLayer.induct tris fe ld with
  | case1 depths behind => rw [PeelLayer_nil]
  | case2 iT rest depths behind s ih =>
    rw [PeelLayer_cons]
    show (PeelLayer tris fe ld s.1 s.2.1 s.2.2).1.length = depths.length
    rw [ih]
    exact List.length_set depths iT ld

theorem PeelLayerOv_length (tris : List Triangle) (fe : Finset Edge)
    (ov : List (Edge × ℕ)) (ld : ℕ) (stack depths : List ℕ)
    (behind : Finset (ℕ × ℕ)) :
    (PeelLayerOv tris fe ov ld stack depths behind).1.length = depths.length := by
  induction stack, depths, behind using PeelLayerOv.induct tris fe ov ld with
  | case1 depths behind => rw [PeelLayerOv_nil]
  | case2 iT rest depths behind s ih =>
    rw [PeelLayerOv_cons]
    show (PeelLayerOv tris fe ov ld s.1 s.2.1 s.2.2).1.length = depths.length
    rw [ih]
    exact List.length_set depths iT ld

/-- Depth entries are only ever overwritten with the layer depth. -/
theorem PeelLayer_dget (tris : List Triangle) (fe : Finset Edge) (ld : ℕ)
    (stack depths : List ℕ) (behind : Finset ℕ) (k : ℕ) :
    dget (PeelLayer tris fe ld stack depths behind).1 k = dget depths k ∨
      dget (PeelLayer tris fe ld stack depths behind).1 k = ld := by
  induction stack, depths, behind using PeelLayer.induct tris fe ld with
  | case1 depths behind => exact Or.inl (by rw [PeelLayer_nil])
  | case2 iT rest depths behind s ih =>
    rw [PeelLayer_cons]
    show dget (PeelLayer tris fe ld s.1 s.2.1 s.2.2).1 k = dget depths k ∨
      dget (PeelLayer tris fe ld s.1 s.2.1 s.2.2).1 k = ld
    rcases ih with h | h
    · rw [h]
      show dget (depths.set iT ld) k = dget depths k ∨ _
      rcases dget_set_cases depths iT ld k with h2 | ⟨_, _, h2⟩
      · exact Or.inl h2
      · exact Or.inr h2
    · exact Or.inr h

theorem PeelLayerOv_dget (tris : List Triangle) (fe : Finset Edge)
    (ov : List (Edge × ℕ)) (ld : ℕ) (stack depths : List ℕ)
    (behind : Finset (ℕ × ℕ)) (k : ℕ) :
    dget (PeelLayerOv tris fe ov ld stack depths behind).1 k = dget depths k ∨
      dget (PeelLayerOv tris fe ov ld stack depths behind).1 k = ld := by
  induction stack, depths, behind using PeelLayerOv.induct tris fe ov ld with
  | case1 depths behind => exact Or.inl (by rw [PeelLayerOv_nil])
  | case2 iT rest depths behind s ih =>
    rw [PeelLayerOv_cons]
    show dget (PeelLayerOv tris fe ov ld s.1 s.2.1 s.2.2).1 k = dget depths k ∨
      dget (PeelLayerOv tris fe ov ld s.1 s.2.1 s.2.2).1 k = ld
    rcases ih with h | h
    · rw [h]
      show dget (depths.set iT ld) k = dget depths k ∨ _
      rcases dget_set_cases depths iT ld k with h2 | ⟨_, _, h2⟩
      · exact Or.inl h2
      · exact Or.inr h2
    · exact Or.inr h

/-- `deepCount` never increases along a peel. -/
theorem PeelLayer_deepCount_le (tris : List Triangle) (fe : Finset Edge) (ld : ℕ)
    (stack depths : List ℕ) (behind : Finset ℕ) :
    deepCount ld (PeelLayer tris fe ld stack depths behind).1 ≤
      deepCount ld depths := by
  induction stack, depths, behind using PeelLayer.induct tris fe ld with
  | case1 depths behind => rw [PeelLayer_nil]
  | case2 iT rest depths behind s ih =>
    rw [PeelLayer_cons]
    exact le_trans ih (deepCount_set_le ld depths iT)

theorem PeelLayerOv_deepCount_le (tris : List Triangle) (fe : Finset Edge)
    (ov : List (Edge × ℕ)) (ld : ℕ) (stack depths : List ℕ)
    (behind : Finset (ℕ × ℕ)) :
    deepCount ld (PeelLayerOv tris fe ov ld stack depths behind).1 ≤
      deepCount ld depths := by
  induction stack, depths, behind using PeelLayerOv.induct tris fe ov ld with
  | case1 depths behind => rw [PeelLayerOv_nil]
  | case2 iT rest depths behind s ih =>
    rw [PeelLayerOv_cons]
    exact le_trans ih (deepCount_set_le ld depths iT)

theorem peelStep_stack_suffix (tris : List Triangle) (fe : Finset Edge)
    (ld iT : ℕ) (rest depths : List ℕ) (behind : Finset ℕ) :
    rest.IsSuffix (peelStep tris fe ld iT rest depths behind).1 := by
  unfold peelStep
  simp only
  have h0 := peelNbrStep_suffix fe ld (depths.set iT ld) (tris.getD iT defaultTri) 0
    (rest, behind.erase iT)
  have h1 := peelNbrStep_suffix fe ld (depths.set iT ld) (tris.getD iT defaultTri) 1
    (peelNbrStep fe ld (depths.set iT ld) (tris.getD iT defaultTri) 0 (rest, behind.erase iT))
  have h2 := peelNbrStep_suffix fe ld (depths.set iT ld) (tris.getD iT defaultTri) 2
    (peelNbrStep fe ld (depths.set iT ld) (tris.getD iT defaultTri) 1
      (peelNbrStep fe ld (depths.set iT ld) (tris.getD iT defaultTri) 0 (rest, behind.erase iT)))
  exact List.IsSuffix.trans (List.IsSuffix.trans h0 h1) h2

theorem peelStepOv_stack_suffix (tris : List Triangle) (fe : Finset Edge)
    (ov : List (Edge × ℕ)) (ld iT : ℕ) (rest depths : List ℕ)
    (behind : Finset (ℕ × ℕ)) :
    rest.IsSuffix (peelStepOv tris fe ov ld iT rest depths behind).1 := by
  unfold peelStepOv
  simp only
  have h0 := peelNbrStepOv_suffix fe ov ld (depths.set iT ld) (tris.getD iT defaultTri) 0
    (rest, mapEraseKey behind iT)
  have h1 := peelNbrStepOv_suffix fe ov ld (depths.set iT ld) (tris.getD iT defaultTri) 1
    (peelNbrStepOv fe ov ld (depths.set iT ld) (tris.getD iT defaultTri) 0
      (rest, mapEraseKey behind iT))
  have h2 := peelNbrStepOv_suffix fe ov ld (depths.set iT ld) (tris.getD iT defaultTri) 2
    (peelNbrStepOv fe ov ld (depths.set iT ld) (tris.getD iT defaultTri) 1
      (peelNbrStepOv fe ov ld (depths.set iT ld) (tris.getD iT defaultTri) 0
        (rest, mapEraseKey behind iT)))
  exact List.IsSuffix.trans (List.IsSuffix.trans h0 h1) h2

/-- Transfer of the pointwise description of a peel through one more
assignment. -/
theorem dget_compose_cases {a b c : List ℕ} {ld k : ℕ}
    (h1 : dget c k = dget b k ∨ (dget c k = ld ∧ dget b k ≤ ld))
    (h2 : dget b k = dget a k ∨ (dget b k = ld ∧ dget a k ≤ ld)) :
    dget c k = dget a k ∨ (dget c k = ld ∧ dget a k ≤ ld) := by
  rcases h1 with h1 | ⟨h1, h1'⟩
  · rcases h2 with h2 | ⟨h2, h2'⟩
    · exact Or.inl (h1.trans h2)
    · exact Or.inr ⟨h1.trans h2, h2'⟩
  · rcases h2 with h2 | ⟨h2, h2'⟩
    · exact Or.inr ⟨h1, h2 ▸ h1'⟩
    · exact Or.inr ⟨h1, h2'⟩

/-- Dichotomy for a run of the set-returning peeler: either some popped
triangle was still deep (and `deepCount` strictly drops), or every stack entry
addresses an already-shallow triangle and all writes overwrite shallow entries
with the layer depth. -/
theorem PeelLayer_dichotomy (tris : List Triangle) (fe : Finset Edge) (ld : ℕ)
    (stack depths : List ℕ) (behind : Finset ℕ) :
    deepCount ld (PeelLayer tris fe ld stack depths behind).1 < deepCount ld depths ∨
      ((∀ v ∈ stack, dget depths v ≤ ld) ∧
        ∀ k, dget (PeelLayer tris fe ld stack depths behind).1 k = dget depths k ∨
          (dget (PeelLayer tris fe ld stack depths behind).1 k = ld ∧
            dget depths k ≤ ld)) := by
  induction stack, depths, behind using PeelLayer.induct tris fe ld with
  | case1 depths behind =>
    refine Or.inr ⟨by simp, fun k => Or.inl (by rw [PeelLayer_nil])⟩
  | case2 iT rest depths behind s ih =>
    rw [PeelLayer_cons]
    rcases le_or_lt (dget depths iT) ld with hle | hlt
    · have hdeq : deepCount ld (depths.set iT ld) = deepCount ld depths :=
        deepCount_set_eq ld depths iT hle
      rcases ih with h | ⟨hstk, hpw⟩
      · left
        calc deepCount ld (PeelLayer tris fe ld s.1 s.2.1 s.2.2).1
            < deepCount ld s.2.1 := h
          _ = deepCount ld depths := hdeq
      · right
        constructor
        · intro v hv
          rcases List.mem_cons.mp hv with rfl | hv
          · exact hle
          · have hvs : v ∈ s.1 :=
              (peelStep_stack_suffix tris fe ld iT rest depths behind).mem hv
            have := hstk v hvs
            rcases dget_set_cases depths iT ld v with h2 | ⟨rfl, _, _⟩
            · show dget depths v ≤ ld
              rw [← h2]
              exact this
            · exact hle
        · intro k
          have hset : dget (depths.set iT ld) k = dget depths k ∨
              (dget (depths.set iT ld) k = ld ∧ dget depths k ≤ ld) := by
            rcases dget_set_cases depths iT ld k with h2 | ⟨rfl, _, h2⟩
            · exact Or.inl h2
            · exact Or.inr ⟨h2, hle⟩
          exact dget_compose_cases (hpw k) hset
    · left
      calc deepCount ld (PeelLayer tris fe ld s.1 s.2.1 s.2.2).1
          ≤ deepCount ld s.2.1 := PeelLayer_deepCount_le tris fe ld _ _ _
        _ < deepCount ld depths := deepCount_set_lt ld depths iT hlt

theorem PeelLayerOv_dichotomy (tris : List Triangle) (fe : Finset Edge)
    (ov : List (Edge × ℕ)) (ld : ℕ) (stack depths : List ℕ)
    (behind : Finset (ℕ × ℕ)) :
    deepCount ld (PeelLayerOv tris fe ov ld stack depths behind).1 < deepCount ld depths ∨
      ((∀ v ∈ stack, dget depths v ≤ ld) ∧
        ∀ k, dget (PeelLayerOv tris fe ov ld stack depths behind).1 k = dget depths k ∨
          (dget (PeelLayerOv tris fe ov ld stack depths behind).1 k = ld ∧
            dget depths k ≤ ld)) := by
  induction stack, depths, behind using PeelLayerOv.induct tris fe ov ld with
  | case1 depths behind =>
    refine Or.inr ⟨by simp, fun k => Or.inl (by rw [PeelLayerOv_nil])⟩
  | case2 iT rest depths behind s ih =>
    rw [PeelLayerOv_cons]
    rcases le_or_lt (dget depths iT) ld with hle | hlt
    · have hdeq : deepCount ld (depths.set iT ld) = deepCount ld depths :=
        deepCount_set_eq ld depths iT hle
      rcases ih with h | ⟨hstk, hpw⟩
      · left
        calc deepCount ld (PeelLayerOv tris fe ov ld s.1 s.2.1 s.2.2).1
            < deepCount ld s.2.1 := h
          _ = deepCount ld depths := hdeq
      · right
        constructor
        · intro v hv
          rcases List.mem_cons.mp hv with rfl | hv
          · exact hle
          · have hvs : v ∈ s.1 :=
              (peelStepOv_stack_suffix tris fe ov ld iT rest depths behind).mem hv
            have := hstk v hvs
            rcases dget_set_cases depths iT ld v with h2 | ⟨rfl, _, _⟩
            · show dget depths v ≤ ld
              rw [← h2]
              exact this
            · exact hle
        · intro k
          have hset : dget (depths.set iT ld) k = dget depths k ∨
              (dget (depths.set iT ld) k = ld ∧ dget depths k ≤ ld) := by
            rcases dget_set_cases depths iT ld k with h2 | ⟨rfl, _, h2⟩
            · exact Or.inl h2
            · exact Or.inr ⟨h2, hle⟩
          exact dget_compose_cases (hpw k) hset
    · left
      calc deepCount ld (PeelLayerOv tris fe ov ld s.1 s.2.1 s.2.2).1
          ≤ deepCount ld s.2.1 := PeelLayerOv_deepCount_le tris fe ov ld _ _ _
        _ < deepCount ld depths := deepCount_set_lt ld depths iT hlt

/-! ## Membership lemmas for stacks and behind-boundary accumulators -/

theorem peelNbrStep_mem_stack (fe : Finset Edge) (ld : ℕ) (depths : List ℕ)
    (t : Triangle) (i : Fin 3) (sb : List ℕ × Finset ℕ) (v : ℕ)
    (hv : v ∈ (peelNbrStep fe ld depths t i sb).1) :
    v ∈ sb.1 ∨ (t.nbr (opoNbr i) = some v ∧ oppositeEdge t i ∉ fe ∧
      ld < dget depths v) := by
  rcases hnbr : t.nbr (opoNbr i) with _ | iN
  · simp only [peelNbrStep, hnbr] at hv
    exact Or.inl hv
  · simp only [peelNbrStep, hnbr] at hv
    by_cases h1 : dget depths iN ≤ ld
    · rw [if_pos h1] at hv
      exact Or.inl hv
    · rw [if_neg h1] at hv
      by_cases h2 : oppositeEdge t i ∈ fe
      · rw [if_pos h2] at hv
        exact Or.inl hv
      · rw [if_neg h2] at hv
        rcases List.mem_cons.mp hv with rfl | hv
        · exact Or.inr ⟨rfl, h2, lt_of_not_le h1⟩
        · exact Or.inl hv

theorem peelNbrStep_mem_behind (fe : Finset Edge) (ld : ℕ) (depths : List ℕ)
    (t : Triangle) (i : Fin 3) (sb : List ℕ × Finset ℕ) (u : ℕ)
    (hu : u ∈ (peelNbrStep fe ld depths t i sb).2) :
    u ∈ sb.2 ∨ (t.nbr (opoNbr i) = some u ∧ oppositeEdge t i ∈ fe ∧
      ld < dget depths u) := by
  rcases hnbr : t.nbr (opoNbr i) with _ | iN
  · simp only [peelNbrStep, hnbr] at hu
    exact Or.inl hu
  · simp only [peelNbrStep, hnbr] at hu
    by_cases h1 : dget depths iN ≤ ld
    · rw [if_pos h1] at hu
      exact Or.inl hu
    · rw [if_neg h1] at hu
      by_cases h2 : oppositeEdge t i ∈ fe
      · rw [if_pos h2] at hu
        rcases Finset.mem_insert.mp hu with rfl | hu
        · exact Or.inr ⟨rfl, h2, lt_of_not_le h1⟩
        · exact Or.inl hu
      · rw [if_neg h2] at hu
        exact Or.inl hu

theorem mem_mapEraseKey {m : Finset (ℕ × ℕ)} {k : ℕ} {p : ℕ × ℕ}
    (hp : p ∈ mapEraseKey m k) : p ∈ m ∧ p.1 ≠ k := by
  unfold mapEraseKey at hp
  simpa using Finset.mem_filter.mp hp

theorem mem_mapUpsert {m : Finset (ℕ × ℕ)} {k v : ℕ} {p : ℕ × ℕ}
    (hp : p ∈ mapUpsert m k v) : p = (k, v) ∨ (p ∈ m ∧ p.1 ≠ k) := by
  unfold mapUpsert at hp
  rcases Finset.mem_insert.mp hp with h | h
  · exact Or.inl h
  · right
    simpa using Finset.mem_filter.mp h

theorem peelNbrStepOv_mem_stack (fe : Finset Edge) (ov : List (Edge × ℕ))
    (ld : ℕ) (depths : List ℕ) (t : Triangle) (i : Fin 3)
    (sb : List ℕ × Finset (ℕ × ℕ)) (v : ℕ)
    (hv : v ∈ (peelNbrStepOv fe ov ld depths t i sb).1) :
    v ∈ sb.1 ∨ (t.nbr (opoNbr i) = some v ∧ oppositeEdge t i ∉ fe ∧
      ld < dget depths v) := by
  rcases hnbr : t.nbr (opoNbr i) with _ | iN
  · simp only [peelNbrStepOv, hnbr] at hv
    exact Or.inl hv
  · simp only [peelNbrStepOv, hnbr] at hv
    by_cases h1 : dget depths iN ≤ ld
    · rw [if_pos h1] at hv
      exact Or.inl hv
    · rw [if_neg h1] at hv
      by_cases h2 : oppositeEdge t i ∈ fe
      · rw [if_pos h2] at hv
        exact Or.inl hv
      · rw [if_neg h2] at hv
        rcases List.mem_cons.mp hv with rfl | hv
        · exact Or.inr ⟨rfl, h2, lt_of_not_le h1⟩
        · exact Or.inl hv

theorem peelNbrStepOv_mem_behind (fe : Finset Edge) (ov : List (Edge × ℕ))
    (ld : ℕ) (depths : List ℕ) (t : Triangle) (i : Fin 3)
    (sb : List ℕ × Finset (ℕ × ℕ)) (p : ℕ × ℕ)
    (hp : p ∈ (peelNbrStepOv fe ov ld depths t i sb).2) :
    p ∈ sb.2 ∨ (t.nbr (opoNbr i) = some p.1 ∧ oppositeEdge t i ∈ fe ∧
      ld < dget depths p.1 ∧
      p.2 = (match List.lookup (oppositeEdge t i) ov with
        | none => ld + 1
        | some cnt => ld + cnt + 1)) := by
  rcases hnbr : t.nbr (opoNbr i) with _ | iN
  · simp only [peelNbrStepOv, hnbr] at hp
    exact Or.inl hp
  · simp only [peelNbrStepOv, hnbr] at hp
    by_cases h1 : dget depths iN ≤ ld
    · rw [if_pos h1] at hp
      exact Or.inl hp
    · rw [if_neg h1] at hp
      by_cases h2 : oppositeEdge t i ∈ fe
      · rw [if_pos h2] at hp
        rcases mem_mapUpsert hp with rfl | ⟨hmem, _⟩
        · exact Or.inr ⟨rfl, h2, lt_of_not_le h1, rfl⟩
        · exact Or.inl hmem
      · rw [if_neg h2] at hp
        exact Or.inl hp

theorem peelStep_mem_stack (tris : List Triangle) (fe : Finset Edge)
    (ld iT : ℕ) (rest depths : List ℕ) (behind : Finset ℕ) (v : ℕ)
    (hv : v ∈ (peelStep tris fe ld iT rest depths behind).1) :
    v ∈ rest ∨ ∃ i : Fin 3,
      (tris.getD iT defaultTri).nbr (opoNbr i) = some v ∧
      oppositeEdge (tris.getD iT defaultTri) i ∉ fe ∧
      ld < dget (depths.set iT ld) v := by
  unfold peelStep at hv
  simp only at hv
  rcases peelNbrStep_mem_stack _ _ _ _ 2 _ v hv with hv | hcase
  · rcases peelNbrStep_mem_stack _ _ _ _ 1 _ v hv with hv | hcase
    · rcases peelNbrStep_mem_stack _ _ _ _ 0 _ v hv with hv | hcase
      · exact Or.inl hv
      · exact Or.inr ⟨0, hcase⟩
    · exact Or.inr ⟨1, hcase⟩
  · exact Or.inr ⟨2, hcase⟩

theorem peelStep_mem_behind (tris : List Triangle) (fe : Finset Edge)
    (ld iT : ℕ) (rest depths : List ℕ) (behind : Finset ℕ) (u : ℕ)
    (hu : u ∈ (peelStep tris fe ld iT rest depths behind).2.2) :
    (u ∈ behind ∧ u ≠ iT) ∨ ∃ i : Fin 3,
      (tris.getD iT defaultTri).nbr (opoNbr i) = some u ∧
      oppositeEdge (tris.getD iT defaultTri) i ∈ fe ∧
      ld < dget (depths.set iT ld) u := by
  unfold peelStep at hu
  simp only at hu
  rcases peelNbrStep_mem_behind _ _ _ _ 2 _ u hu with hu | hcase
  · rcases peelNbrStep_mem_behind _ _ _ _ 1 _ u hu with hu | hcase
    · rcases peelNbrStep_mem_behind _ _ _ _ 0 _ u hu with hu | hcase
      · have h := Finset.mem_erase.mp hu
        exact Or.inl ⟨h.2, h.1⟩
      · exact Or.inr ⟨0, hcase⟩
    · exact Or.inr ⟨1, hcase⟩
  · exact Or.inr ⟨2, hcase⟩

theorem peelStepOv_mem_stack (tris : List Triangle) (fe : Finset Edge)
    (ov : List (Edge × ℕ)) (ld iT : ℕ) (rest depths : List ℕ)
    (behind : Finset (ℕ × ℕ)) (v : ℕ)
    (hv : v ∈ (peelStepOv tris fe ov ld iT rest depths behind).1) :
    v ∈ rest ∨ ∃ i : Fin 3,
      (tris.getD iT defaultTri).nbr (opoNbr i) = some v ∧
      oppositeEdge (tris.getD iT defaultTri) i ∉ fe ∧
      ld < dget (depths.set iT ld) v := by
  unfold peelStepOv at hv
  simp only at hv
  rcases peelNbrStepOv_mem_stack _ _ _ _ _ 2 _ v hv with hv | hcase
  · rcases peelNbrStepOv_mem_stack _ _ _ _ _ 1 _ v hv with hv | hcase
    · rcases peelNbrStepOv_mem_stack _ _ _ _ _ 0 _ v hv with hv | hcase
      · exact Or.inl hv
      · exact Or.inr ⟨0, hcase⟩
    · exact Or.inr ⟨1, hcase⟩
  · exact Or.inr ⟨2, hcase⟩

theorem peelStepOv_mem_behind (tris : List Triangle) (fe : Finset Edge)
    (ov : List (Edge × ℕ)) (ld iT : ℕ) (rest depths : List ℕ)
    (behind : Finset (ℕ × ℕ)) (p : ℕ × ℕ)
    (hp : p ∈ (peelStepOv tris fe ov ld iT rest depths behind).2.2) :
    (p ∈ behind ∧ p.1 ≠ iT) ∨ ∃ i : Fin 3,
      (tris.getD iT defaultTri).nbr (opoNbr i) = some p.1 ∧
      oppositeEdge (tris.getD iT defaultTri) i ∈ fe ∧
      ld < dget (depths.set iT ld) p.1 ∧
      p.2 = (match List.lookup (oppositeEdge (tris.getD iT defaultTri) i) ov with
        | none => ld + 1
        | some cnt => ld + cnt + 1) := by
  unfold peelStepOv at hp
  simp only at hp
  rcases peelNbrStepOv_mem_behind _ _ _ _ _ 2 _ p hp with hp | hcase
  · rcases peelNbrStepOv_mem_behind _ _ _ _ _ 1 _ p hp with hp | hcase
    · rcases peelNbrStepOv_mem_behind _ _ _ _ _ 0 _ p hp with hp | hcase
      · exact Or.inl (mem_mapEraseKey hp)
      · exact Or.inr ⟨0, hcase⟩
    · exact Or.inr ⟨1, hcase⟩
  · exact Or.inr ⟨2, hcase⟩

/-- Triangles recorded behind the boundary stay deeper than the layer: every
member of the returned `behindBoundary` set still has depth `> layerDepth`
in the returned depth array. -/
theorem PeelLayer_behind_inv (tris : List Triangle) (fe : Finset Edge) (ld : ℕ)
    (stack depths : List ℕ) (behind : Finset ℕ)
    (hb : ∀ u ∈ behind, ld < dget depths u) :
    ∀ u ∈ (PeelLayer tris fe ld stack depths behind).2,
      ld < dget (PeelLayer tris fe ld stack depths behind).1 u := by
  induction stack, depths, behind using PeelLayer.induct tris fe ld with
  | case1 depths behind =>
    rw [PeelLayer_nil]
    exact hb
  | case2 iT rest depths behind s ih =>
    rw [PeelLayer_cons]
    apply ih
    intro u hu
    rcases peelStep_mem_behind tris fe ld iT rest depths behind u hu with
      ⟨hmem, hne⟩ | ⟨i, _, _, hdeep⟩
    · show ld < dget (depths.set iT ld) u
      rw [dget_set_ne hne]
      exact hb u hmem
    · exact hdeep

/-- Pairs recorded behind the boundary by the overlap-aware peeler carry a
target depth `≥ layerDepth + 1` and address triangles still deeper than the
layer in the returned depth array. -/
theorem PeelLayerOv_behind_inv (tris : List Triangle) (fe : Finset Edge)
    (ov : List (Edge × ℕ)) (ld : ℕ) (stack depths : List ℕ)
    (behind : Finset (ℕ × ℕ))
    (hb : ∀ p ∈ behind, ld + 1 ≤ p.2 ∧ ld < dget depths p.1) :
    ∀ p ∈ (PeelLayerOv tris fe ov ld stack depths behind).2,
      ld + 1 ≤ p.2 ∧ ld < dget (PeelLayerOv tris fe ov ld stack depths behind).1 p.1 := by
  induction stack, depths, behind using PeelLayerOv.induct tris fe ov ld with
  | case1 depths behind =>
    rw [PeelLayerOv_nil]
    exact hb
  | case2 iT rest depths behind s ih =>
    rw [PeelLayerOv_cons]
    apply ih
    intro p hp
    rcases peelStepOv_mem_behind tris fe ov ld iT rest depths behind p hp with
      ⟨hmem, hne⟩ | ⟨i, _, _, hdeep, htgt⟩
    · refine ⟨(hb p hmem).1, ?_⟩
      show ld < dget (depths.set iT ld) p.1
      rw [dget_set_ne hne]
      exact (hb p hmem).2
    · refine ⟨?_, hdeep⟩
      rw [htgt]
      rcases hlk : List.lookup (oppositeEdge (tris.getD iT defaultTri) i) ov with _ | cnt
      · exact Nat.le_refl _
      · show ld + 1 ≤ ld + cnt + 1
        omega

/-! ## `CalculateTriangleDepths`, no-overlap overload (CDT.hpp:156-174) -/

theorem deepCount_mono_ld (ld : ℕ) (l : List ℕ) :
    deepCount (ld + 1) l ≤ deepCount ld l := by
  apply Finset.card_le_card
  intro k hk
  simp only [deepCount, Finset.mem_filter, Finset.mem_range] at hk ⊢
  exact ⟨hk.1, lt_of_le_of_lt (Nat.le_succ ld) hk.2⟩

/-- Measure decrease for one round of the no-overlap depth-calculation loop. -/
theorem calcMeasure_set (tris : List Triangle) (fe : Finset Edge) (ld : ℕ)
    (seeds depths : List ℕ)
    (hne : (PeelLayer tris fe ld seeds depths ∅).2.sort (· ≤ ·) ≠ []) :
    Prod.Lex (· < ·) (· < ·)
      (deepCount (ld + 1) (PeelLayer tris fe ld seeds depths ∅).1,
        staleCount (ld + 1) (PeelLayer tris fe ld seeds depths ∅).1
          ((PeelLayer tris fe ld seeds depths ∅).2.sort (· ≤ ·)))
      (deepCount ld depths, staleCount ld depths seeds) := by
  set r := PeelLayer tris fe ld seeds depths ∅ with hr
  have hlen : r.1.length = depths.length := PeelLayer_length tris fe ld seeds depths ∅
  rcases PeelLayer_dichotomy tris fe ld seeds depths ∅ with hlt | ⟨hstk, hpw⟩
  all_goals rw [← hr] at *
  · exact Prod.Lex.left _ _
      (lt_of_le_of_lt (deepCount_mono_ld ld r.1) hlt)
  · by_cases hex : ∃ k, k < depths.length ∧ dget depths k = ld + 1
    · obtain ⟨k, hk, hkv⟩ := hex
      apply Prod.Lex.left
      apply lt_of_lt_of_le _ (le_refl (deepCount ld depths))
      apply Finset.card_lt_card
      constructor
      · intro j hj
        simp only [deepCount, Finset.mem_filter, Finset.mem_range, hlen] at hj ⊢
        refine ⟨hj.1, ?_⟩
        rcases hpw j with h | ⟨h, _⟩
        · rw [h] at hj
          exact lt_trans (Nat.lt_succ_self ld) hj.2
        · rw [h] at hj
          exact absurd hj.2 (by omega)
      · intro hsub
        have hmem : k ∈ (Finset.range depths.length).filter
            (fun j => ld < dget depths j) := by
          simp only [Finset.mem_filter, Finset.mem_range]
          exact ⟨hk, by omega⟩
        have := hsub hmem
        simp only [deepCount, Finset.mem_filter, Finset.mem_range, hlen] at this
        rcases hpw k with h | ⟨h, _⟩
        · rw [h, hkv] at this
          omega
        · rw [h] at this
          omega
    · push_neg at hex
      have hUeq : deepCount (ld + 1) r.1 = deepCount ld depths := by
        unfold deepCount
        rw [hlen]
        congr 1
        apply Finset.filter_congr
        intro j hj
        simp only [Finset.mem_range] at hj
        rcases hpw j with h | ⟨h, hle⟩
        · rw [h]
          have := hex j hj
          constructor <;> intro hlt2 <;> simp only [decide_eq_true_eq] at hlt2 ⊢ <;> omega
        · rw [h]
          constructor <;> intro hlt2 <;> simp only [decide_eq_true_eq] at hlt2 ⊢ <;> omega
      apply Prod.Lex.right'
      · exact le_of_eq hUeq
      · have hzero : staleCount (ld + 1) r.1 (r.2.sort (· ≤ ·)) = 0 := by
          unfold staleCount
          rw [List.countP_eq_zero]
          intro u hu
          have hmem : u ∈ r.2 := (Finset.mem_sort (α := ℕ) (· ≤ ·)).mp hu
          have hdeep : ld < dget r.1 u :=
            PeelLayer_behind_inv tris fe ld seeds depths ∅ (by simp) u hmem
          have hult : u < depths.length := by
            by_contra hc
            rw [show dget r.1 u = 0 from dget_oob (hlen ▸ le_of_not_lt hc)] at hdeep
            omega
          have : dget r.1 u ≠ ld + 1 := by
            rcases hpw u with h | ⟨h, _⟩
            · rw [h]
              exact hex u hult
            · omega
          simp only [decide_eq_true_eq]
          omega
        rw [hzero]
        have hpos : 0 < staleCount ld depths seeds := by
          rcases hseeds : seeds with _ | ⟨v, rest⟩
          · subst hseeds
            exfalso
            apply hne
            show (PeelLayer tris fe ld [] depths ∅).2.sort (· ≤ ·) = []
            rw [PeelLayer_nil]
            simp
          · unfold staleCount
            rw [List.countP_cons]
            have hv : dget depths v ≤ ld := hstk v (by rw [hseeds]; exact List.mem_cons_self v rest)
            simp [hv]
        exact hpos

/-- The `do { ... } while(!seeds.empty())` loop of the no-overlap
`CalculateTriangleDepths` (CDT.hpp:166-171): peel one layer, rebuild the seed
stack from the returned behind-boundary set, bump the layer depth, and repeat
until no seeds remain. -/
def CalculateTriangleDepthsGo (tris : List Triangle) (fe : Finset Edge) :
    List ℕ → ℕ → List ℕ → List ℕ
  | seeds, ld, depths =>
    let r := PeelLayer tris fe ld seeds depths ∅
    let seeds1 := r.2.sort (· ≤ ·)
    if h : seeds1 = [] then r.1
    else CalculateTriangleDepthsGo tris fe seeds1 (ld + 1) r.1
termination_by seeds ld depths => (deepCount ld depths, staleCount ld depths seeds)
decreasing_by
  exact calcMeasure_set tris fe ld seeds depths h

/-- The no-overlap `CalculateTriangleDepths` (CDT.hpp:156-174): depths start
at `layerDepthMax` for every triangle, the seed stack starts as the single
`seed`, and layers are peeled starting from depth `0`. -/
def CalculateTriangleDepths (tris : List Triangle) (fe : Finset Edge)
    (seed : ℕ) : List ℕ :=
  CalculateTriangleDepthsGo tris fe [seed] 0
    (List.replicate tris.length layerDepthMax)

/-! ## `CalculateTriangleDepths`, overlap-aware overload (CDT.hpp:122-154) -/

/-- Second measure component for the overlap-aware loop: pending recorded
seeds addressing already-shallow triangles (weighted), plus shallow entries on
the current seed stack. -/
def qmMeas (ld : ℕ) (depths : List ℕ) (sbd : Finset (ℕ × ℕ))
    (seeds : List ℕ) : ℕ :=
  2 * (sbd.filter (fun p => ld + 1 ≤ p.1 ∧ dget depths p.2 ≤ ld)).card +
    staleCount ld depths seeds

/-- Third measure component: recorded seeds still ahead of the layer. -/
def paMeas (ld : ℕ) (sbd : Finset (ℕ × ℕ)) : ℕ :=
  (sbd.filter (fun p => ld + 1 ≤ p.1)).card

theorem lex4 {a1 b1 c1 d1 a2 b2 c2 d2 : ℕ}
    (h : a1 < a2 ∨ (a1 = a2 ∧ (b1 < b2 ∨ (b1 = b2 ∧
      (c1 < c2 ∨ (c1 = c2 ∧ d1 < d2)))))) :
    Prod.Lex (· < ·) (Prod.Lex (· < ·) (Prod.Lex (· < ·) (· < ·)))
      (a1, b1, c1, d1) (a2, b2, c2, d2) := by
  rcases h with h | ⟨rfl, h⟩
  · exact Prod.Lex.left _ _ h
  · apply Prod.Lex.right
    rcases h with h | ⟨rfl, h⟩
    · exact Prod.Lex.left _ _ h
    · apply Prod.Lex.right
      rcases h with h | ⟨rfl, h⟩
      · exact Prod.Lex.left _ _ h
      · exact Prod.Lex.right _ h

theorem countP_le_of_mem (l : List ℕ) (hl : l.Nodup) (p : ℕ → Bool)
    (T : Finset ℕ) (h : ∀ x ∈ l, p x = true → x ∈ T) :
    l.countP p ≤ T.card := by
  rw [List.countP_eq_length_filter]
  have hnodup : (l.filter p).Nodup := hl.filter p
  rw [← List.toFinset_card_of_nodup hnodup]
  apply Finset.card_le_card
  intro x hx
  rw [List.mem_toFinset] at hx
  obtain ⟨hxl, hxp⟩ := List.mem_filter.mp hx
  exact h x hxl hxp

/-- Shifting the threshold with the pointwise description of a peel:
non-strict comparison of the deep counts. -/
theorem deepCount_shift_le (ld : ℕ) (depths r1 : List ℕ)
    (hlen : r1.length = depths.length)
    (hpw : ∀ k, dget r1 k = dget depths k ∨ (dget r1 k = ld ∧ dget depths k ≤ ld)) :
    deepCount (ld + 1) r1 ≤ deepCount ld depths := by
  apply Finset.card_le_card
  intro j hj
  simp only [deepCount, Finset.mem_filter, Finset.mem_range, hlen] at hj ⊢
  refine ⟨hj.1, ?_⟩
  rcases hpw j with h | ⟨h, _⟩
  · rw [h] at hj
    omega
  · rw [h] at hj
    omega

theorem deepCount_shift_lt (ld : ℕ) (depths r1 : List ℕ)
    (hlen : r1.length = depths.length)
    (hpw : ∀ k, dget r1 k = dget depths k ∨ (dget r1 k = ld ∧ dget depths k ≤ ld))
    (k : ℕ) (hk : k < depths.length) (hkv : dget depths k = ld + 1) :
    deepCount (ld + 1) r1 < deepCount ld depths := by
  apply Finset.card_lt_card
  constructor
  · intro j hj
    simp only [deepCount, Finset.mem_filter, Finset.mem_range, hlen] at hj ⊢
    refine ⟨hj.1, ?_⟩
    rcases hpw j with h | ⟨h, _⟩
    · rw [h] at hj
      omega
    · rw [h] at hj
      omega
  · intro hsub
    have hmem : k ∈ (Finset.range depths.length).filter
        (fun j => ld < dget depths j) := by
      simp only [Finset.mem_filter, Finset.mem_range]
      exact ⟨hk, by omega⟩
    have := hsub hmem
    simp only [deepCount, Finset.mem_filter, Finset.mem_range, hlen] at this
    rcases hpw k with h | ⟨h, _⟩
    · rw [h, hkv] at this
      omega
    · rw [h] at this
      omega

theorem deepCount_shift_eq (ld : ℕ) (depths r1 : List ℕ)
    (hlen : r1.length = depths.length)
    (hpw : ∀ k, dget r1 k = dget depths k ∨ (dget r1 k = ld ∧ dget depths k ≤ ld))
    (hex : ∀ k, k < depths.length → dget depths k ≠ ld + 1) :
    deepCount (ld + 1) r1 = deepCount ld depths := by
  unfold deepCount
  rw [hlen]
  congr 1
  apply Finset.filter_congr
  intro j hj
  simp only [Finset.mem_range] at hj
  have hjex := hex j hj
  rcases hpw j with h | ⟨h, hle⟩
  · rw [h]
    constructor <;> intro h2 <;> simp only [decide_eq_true_eq] at h2 ⊢ <;> omega
  · rw [h]
    constructor <;> intro h2 <;> simp only [decide_eq_true_eq] at h2 ⊢ <;> omega

/-- Measure decrease for one round of the overlap-aware depth-calculation
loop. -/
theorem calcMeasure_ov (tris : List Triangle) (fe : Finset Edge)
    (ov : List (Edge × ℕ)) (ld deepest : ℕ) (seeds depths : List ℕ)
    (sbd : Finset (ℕ × ℕ)) (r1 : List ℕ) (bb : Finset (ℕ × ℕ))
    (hrun : PeelLayerOv tris fe ov ld seeds depths ∅ = (r1, bb))
    (sbd1 : Finset (ℕ × ℕ)) (deepest1 : ℕ) (seeds1 : List ℕ)
    (hsbd1 : sbd1 = (sbd.filter (fun p => p.1 ≠ ld)) ∪ bb.image (fun p => (p.2, p.1)))
    (hdeepest1 : deepest1 = max deepest (bb.sup (fun p => p.2)))
    (hseeds1 : seeds1 = ((sbd1.filter (fun p => p.1 = ld + 1)).image (fun p => p.2)).sort (· ≤ ·))
    (hguard : ¬(seeds1 = [] ∧ deepest1 ≤ ld + 1)) :
    deepCount (ld + 1) r1 < deepCount ld depths ∨
      (deepCount (ld + 1) r1 = deepCount ld depths ∧
        (qmMeas (ld + 1) r1 sbd1 seeds1 < qmMeas ld depths sbd seeds ∨
          (qmMeas (ld + 1) r1 sbd1 seeds1 = qmMeas ld depths sbd seeds ∧
            (paMeas (ld + 1) sbd1 < paMeas ld sbd ∨
              (paMeas (ld + 1) sbd1 = paMeas ld sbd ∧
                deepest1 + 1 - (ld + 1) < deepest + 1 - ld))))) := by
  have hlen : r1.length = depths.length := by
    have h := PeelLayerOv_length tris fe ov ld seeds depths ∅
    rw [hrun] at h
    exact h
  have hbinv : ∀ p ∈ bb, ld + 1 ≤ p.2 ∧ ld < dget r1 p.1 := by
    have h := PeelLayerOv_behind_inv tris fe ov ld seeds depths ∅ (by simp)
    rw [hrun] at h
    exact h
  have hdich : deepCount ld r1 < deepCount ld depths ∨
      ((∀ v ∈ seeds, dget depths v ≤ ld) ∧
        ∀ k, dget r1 k = dget depths k ∨ (dget r1 k = ld ∧ dget depths k ≤ ld)) := by
    have h := PeelLayerOv_dichotomy tris fe ov ld seeds depths ∅
    rw [hrun] at h
    exact h
  rcases hdich with hlt | ⟨hstk, hpw⟩
  · exact Or.inl (lt_of_le_of_lt (deepCount_mono_ld ld r1) hlt)
  · by_cases hex : ∃ k, k < depths.length ∧ dget depths k = ld + 1
    · obtain ⟨k, hk, hkv⟩ := hex
      exact Or.inl (deepCount_shift_lt ld depths r1 hlen hpw k hk hkv)
    · push_neg at hex
      have hU := deepCount_shift_eq ld depths r1 hlen hpw hex
      right
      refine ⟨hU, ?_⟩
      have hstale_transfer : ∀ u, dget r1 u ≤ ld + 1 → dget depths u ≤ ld := by
        intro u h
        rcases lt_or_ge u depths.length with hu | hu
        · rcases hpw u with h2 | ⟨h2, hle⟩
          · rw [h2] at h
            have := hex u hu
            omega
          · exact hle
        · rw [dget_oob hu]
          exact Nat.zero_le ld
      have himg_deep : ∀ p ∈ bb, ld + 1 < dget r1 p.1 := by
        intro p hp
        have hdeep := (hbinv p hp).2
        have hult : p.1 < depths.length := by
          by_contra hc
          rw [show dget r1 p.1 = 0 from dget_oob (hlen ▸ le_of_not_lt hc)] at hdeep
          omega
        rcases hpw p.1 with h2 | ⟨h2, _⟩
        · rw [h2] at hdeep ⊢
          have := hex p.1 hult
          omega
        · omega
      have hPnew_le : (sbd1.filter (fun p => ld + 1 + 1 ≤ p.1 ∧ dget r1 p.2 ≤ ld + 1)).card
          ≤ (sbd.filter (fun p => ld + 2 ≤ p.1 ∧ dget depths p.2 ≤ ld)).card := by
        apply Finset.card_le_card
        intro p hp
        obtain ⟨hmem, hcond⟩ := Finset.mem_filter.mp hp
        rw [hsbd1] at hmem
        rcases Finset.mem_union.mp hmem with hmem | hmem
        · exact Finset.mem_filter.mpr
            ⟨(Finset.mem_filter.mp hmem).1, hcond.1, hstale_transfer _ hcond.2⟩
        · exfalso
          obtain ⟨q, hq, hqe⟩ := Finset.mem_image.mp hmem
          have hdq := himg_deep q hq
          rw [← hqe] at hcond
          exact absurd hcond.2 (not_le.mpr hdq)
      have hSeeds_le : staleCount (ld + 1) r1 seeds1
          ≤ (sbd.filter (fun p => p.1 = ld + 1 ∧ dget depths p.2 ≤ ld)).card := by
        apply le_trans _ (Finset.card_image_le
          (s := sbd.filter (fun p => p.1 = ld + 1 ∧ dget depths p.2 ≤ ld))
          (f := fun p => p.2))
        unfold staleCount
        rw [hseeds1]
        apply countP_le_of_mem _ (Finset.sort_nodup _ _)
        intro x hx hpx
        have hxS : x ∈ (sbd1.filter (fun p => p.1 = ld + 1)).image (fun p => p.2) :=
          (Finset.mem_sort (α := ℕ) (· ≤ ·)).mp hx
        obtain ⟨q, hq, rfl⟩ := Finset.mem_image.mp hxS
        obtain ⟨hq1, hq2⟩ := Finset.mem_filter.mp hq
        have hqstale : dget r1 q.2 ≤ ld + 1 := by simpa using hpx
        rw [hsbd1] at hq1
        rcases Finset.mem_union.mp hq1 with hmem | hmem
        · apply Finset.mem_image_of_mem
          exact Finset.mem_filter.mpr
            ⟨(Finset.mem_filter.mp hmem).1, hq2, hstale_transfer _ hqstale⟩
        · exfalso
          obtain ⟨w, hw, hwe⟩ := Finset.mem_image.mp hmem
          have hdw := himg_deep w hw
          rw [← hwe] at hqstale
          exact absurd hqstale (not_le.mpr hdw)
      have hdisj : (sbd.filter (fun p => ld + 2 ≤ p.1 ∧ dget depths p.2 ≤ ld)).card
          + (sbd.filter (fun p => p.1 = ld + 1 ∧ dget depths p.2 ≤ ld)).card
          ≤ (sbd.filter (fun p => ld + 1 ≤ p.1 ∧ dget depths p.2 ≤ ld)).card := by
        rw [← Finset.card_union_of_disjoint]
        · apply Finset.card_le_card
          intro p hp
          rcases Finset.mem_union.mp hp with h | h <;>
            obtain ⟨hm, hc⟩ := Finset.mem_filter.mp h
          · exact Finset.mem_filter.mpr ⟨hm, by omega, hc.2⟩
          · exact Finset.mem_filter.mpr ⟨hm, by omega, hc.2⟩
        · rw [Finset.disjoint_filter]
          intro p _ hc1 hc2
          omega
      have hqm_le : qmMeas (ld + 1) r1 sbd1 seeds1 ≤
          2 * (sbd.filter (fun p => ld + 1 ≤ p.1 ∧ dget depths p.2 ≤ ld)).card := by
        unfold qmMeas
        omega
      by_cases hse : seeds = []
      · -- empty seed stack: the peel is the identity
        subst hse
        rw [PeelLayerOv_nil] at hrun
        injection hrun with hr1 hbb
        have hsbd1' : sbd1 = sbd.filter (fun p => p.1 ≠ ld) := by
          rw [hsbd1, ← hbb]
          simp
        have hqm_le2 : qmMeas (ld + 1) r1 sbd1 seeds1 ≤ qmMeas ld depths sbd [] := by
          apply le_trans hqm_le
          unfold qmMeas staleCount
          simp
        rcases lt_or_eq_of_le hqm_le2 with h | hqmeq
        · exact Or.inl h
        · right
          refine ⟨hqmeq, ?_⟩
          have hpa_le : paMeas (ld + 1) sbd1 ≤ paMeas ld sbd := by
            apply Finset.card_le_card
            intro p hp
            obtain ⟨hm, hc⟩ := Finset.mem_filter.mp hp
            rw [hsbd1'] at hm
            exact Finset.mem_filter.mpr ⟨(Finset.mem_filter.mp hm).1, by omega⟩
          by_cases hP : ∃ p ∈ sbd, p.1 = ld + 1
          · obtain ⟨p, hpmem, hpval⟩ := hP
            left
            apply Finset.card_lt_card
            constructor
            · intro q hq
              obtain ⟨hm, hc⟩ := Finset.mem_filter.mp hq
              rw [hsbd1'] at hm
              exact Finset.mem_filter.mpr ⟨(Finset.mem_filter.mp hm).1, by omega⟩
            · intro hsub
              have hpin : p ∈ sbd.filter (fun p => ld + 1 ≤ p.1) :=
                Finset.mem_filter.mpr ⟨hpmem, by omega⟩
              have hcontra := hsub hpin
              obtain ⟨hm, hc⟩ := Finset.mem_filter.mp hcontra
              rw [hsbd1'] at hm
              omega
          · right
            refine ⟨le_antisymm hpa_le ?_, ?_⟩
            · apply Finset.card_le_card
              intro q hq
              obtain ⟨hm, hc⟩ := Finset.mem_filter.mp hq
              have hne : q.1 ≠ ld + 1 := fun hcontra => hP ⟨q, hm, hcontra⟩
              refine Finset.mem_filter.mpr ⟨?_, by omega⟩
              rw [hsbd1']
              exact Finset.mem_filter.mpr ⟨hm, by omega⟩
            · have hseeds1nil : seeds1 = [] := by
                rw [hseeds1]
                have hemp : sbd1.filter (fun p => p.1 = ld + 1) = ∅ := by
                  apply Finset.filter_eq_empty_iff.mpr
                  intro p hp
                  rw [hsbd1'] at hp
                  exact fun hcontra => hP ⟨p, (Finset.mem_filter.mp hp).1, hcontra⟩
                rw [hemp]
                simp
              have hdeep1 : deepest1 = deepest := by
                rw [hdeepest1, ← hbb]
                simp
              have hlast : ld + 1 < deepest1 := by
                by_contra hc
                exact hguard ⟨hseeds1nil, le_of_not_lt hc⟩
              omega
      · -- nonempty seed stack: all seeds are stale, the weighted count drops
        left
        obtain ⟨v, rest, rfl⟩ := List.exists_cons_of_ne_nil hse
        have hstale_pos : 0 < staleCount ld depths (v :: rest) := by
          unfold staleCount
          rw [List.countP_cons]
          have hv : dget depths v ≤ ld := hstk v (List.mem_cons_self v rest)
          simp [hv]
        unfold qmMeas
        unfold qmMeas at hqm_le
        omega

/-- The `do { ... } while(...)` loop of the overlap-aware
`CalculateTriangleDepths` (CDT.hpp:135-151): peel one layer, drop the consumed
entry of `seedsByDepth`, file the returned behind-boundary seeds under their
target depths, track the deepest recorded target, rebuild the seed stack from
the seeds filed under depth `layerDepth + 1`, bump the layer depth, and repeat
while seeds remain or a recorded target depth exceeds the layer depth. -/
def CalculateTriangleDepthsOvGo (tris : List Triangle) (fe : Finset Edge)
    (ov : List (Edge × ℕ)) :
    List ℕ → Finset (ℕ × ℕ) → ℕ → ℕ → List ℕ → List ℕ
  | seeds, sbd, ld, deepest, depths =>
    let r := PeelLayerOv tris fe ov ld seeds depths ∅
    let sbd1 := (sbd.filter (fun p => p.1 ≠ ld)) ∪ r.2.image (fun p => (p.2, p.1))
    let deepest1 := max deepest (r.2.sup (fun p => p.2))
    let seeds1 := ((sbd1.filter (fun p => p.1 = ld + 1)).image (fun p => p.2)).sort (· ≤ ·)
    if h : seeds1 = [] ∧ deepest1 ≤ ld + 1 then r.1
    else CalculateTriangleDepthsOvGo tris fe ov seeds1 sbd1 (ld + 1) deepest1 r.1
termination_by seeds sbd ld deepest depths =>
  (deepCount ld depths, qmMeas ld depths sbd seeds, paMeas ld sbd, deepest + 1 - ld)
decreasing_by
  exact lex4 (calcMeasure_ov tris fe ov ld deepest seeds depths sbd
    (PeelLayerOv tris fe ov ld seeds depths ∅).1
    (PeelLayerOv tris fe ov ld seeds depths ∅).2
    rfl _ _ _ rfl rfl rfl h)

/-- The overlap-aware `CalculateTriangleDepths` (CDT.hpp:122-154): depths
start at `layerDepthMax` for every triangle, the seed stack holds just `seed`,
`seedsByDepth` starts empty, and both the layer depth and the deepest recorded
seed depth start at `0`. -/
def CalculateTriangleDepthsOv (tris : List Triangle) (fe : Finset Edge)
    (ov : List (Edge × ℕ)) (seed : ℕ) : List ℕ :=
  CalculateTriangleDepthsOvGo tris fe ov [seed] ∅ 0 0
    (List.replicate tris.length layerDepthMax)

/-! ## Reachability through neighbor traversal -/

/-- Reachability between triangles through neighbor slots, crossing only
non-fixed edges (the traversal performed by `PeelLayer` inside one layer). -/
inductive ReachNF (tris : List Triangle) (fe : Finset Edge) : ℕ → ℕ → Prop where
  | refl (a : ℕ) : ReachNF tris fe a a
  | step (a b c : ℕ) (i : Fin 3) : ReachNF tris fe a b →
      (tris.getD b defaultTri).nbr (opoNbr i) = some c →
      oppositeEdge (tris.getD b defaultTri) i ∉ fe →
      ReachNF tris fe a c

/-- Reachability between triangles through neighbor slots, crossing any edge
(the traversal performed by `CalculateTriangleDepths` across all layers). -/
inductive ReachAdj (tris : List Triangle) : ℕ → ℕ → Prop where
  | refl (a : ℕ) : ReachAdj tris a a
  | step (a b c : ℕ) (i : Fin 3) : ReachAdj tris a b →
      (tris.getD b defaultTri).nbr (opoNbr i) = some c →
      ReachAdj tris a c

theorem reachNF_trans {tris : List Triangle} {fe : Finset Edge} {a b c : ℕ}
    (h1 : ReachNF tris fe a b) (h2 : ReachNF tris fe b c) :
    ReachNF tris fe a c := by
  induction h2 with
  | refl => exact h1
  | step y z i hxy hn hf ih => exact ReachNF.step _ _ _ i ih hn hf

theorem reachAdj_trans {tris : List Triangle} {a b c : ℕ}
    (h1 : ReachAdj tris a b) (h2 : ReachAdj tris b c) :
    ReachAdj tris a c := by
  induction h2 with
  | refl => exact h1
  | step y z i hxy hn ih => exact ReachAdj.step _ _ _ i ih hn

/-- Within one layer, a peel changes the depth only of triangles reachable
from a seed without crossing a fixed edge. -/
theorem PeelLayer_no_crossing (tris : List Triangle) (fe : Finset Edge)
    (ld : ℕ) (stack depths : List ℕ) (behind : Finset ℕ) :
    ∀ k, dget (PeelLayer tris fe ld stack depths behind).1 k = dget depths k ∨
      ∃ s ∈ stack, ReachNF tris fe s k := by
  induction stack, depths, behind using PeelLayer.induct tris fe ld with
  | case1 depths behind =>
    intro k
    exact Or.inl (by rw [PeelLayer_nil])
  | case2 iT rest depths behind s ih =>
    intro k
    rw [PeelLayer_cons]
    rcases ih k with h | ⟨s', hs', hr⟩
    · rcases dget_set_cases depths iT ld k with h2 | ⟨rfl, _, _⟩
      · left
        show dget (PeelLayer tris fe ld s.1 s.2.1 s.2.2).1 k = dget depths k
        rw [← h2]
        exact h
      · exact Or.inr ⟨k, List.mem_cons_self k rest, ReachNF.refl k⟩
    · rcases peelStep_mem_stack tris fe ld iT rest depths behind s' hs' with
        hmem | ⟨i, hn, hnf, _⟩
      · exact Or.inr ⟨s', List.mem_cons_of_mem iT hmem, hr⟩
      · refine Or.inr ⟨iT, List.mem_cons_self iT rest, ?_⟩
        exact reachNF_trans (ReachNF.step iT iT s' i (ReachNF.refl iT) hn hnf) hr

/-- A peel changes the depth only of triangles reachable from a seed. -/
theorem PeelLayer_reach (tris : List Triangle) (fe : Finset Edge)
    (ld : ℕ) (stack depths : List ℕ) (behind : Finset ℕ) :
    ∀ k, dget (PeelLayer tris fe ld stack depths behind).1 k = dget depths k ∨
      ∃ s ∈ stack, ReachAdj tris s k := by
  induction stack, depths, behind using PeelLayer.induct tris fe ld with
  | case1 depths behind =>
    intro k
    exact Or.inl (by rw [PeelLayer_nil])
  | case2 iT rest depths behind s ih =>
    intro k
    rw [PeelLayer_cons]
    rcases ih k with h | ⟨s', hs', hr⟩
    · rcases dget_set_cases depths iT ld k with h2 | ⟨rfl, _, _⟩
      · left
        show dget (PeelLayer tris fe ld s.1 s.2.1 s.2.2).1 k = dget depths k
        rw [← h2]
        exact h
      · exact Or.inr ⟨k, List.mem_cons_self k rest, ReachAdj.refl k⟩
    · rcases peelStep_mem_stack tris fe ld iT rest depths behind s' hs' with
        hmem | ⟨i, hn, _, _⟩
      · exact Or.inr ⟨s', List.mem_cons_of_mem iT hmem, hr⟩
      · refine Or.inr ⟨iT, List.mem_cons_self iT rest, ?_⟩
        exact reachAdj_trans (ReachAdj.step iT iT s' i (ReachAdj.refl iT) hn) hr

/-- Behind-boundary triangles collected by a peel are reachable from a seed
(or were already in the accumulator). -/
theorem PeelLayer_behind_reach (tris : List Triangle) (fe : Finset Edge)
    (ld : ℕ) (stack depths : List ℕ) (behind : Finset ℕ) :
    ∀ u ∈ (PeelLayer tris fe ld stack depths behind).2,
      u ∈ behind ∨ ∃ s ∈ stack, ReachAdj tris s u := by
  induction stack, depths, behind using PeelLayer.induct tris fe ld with
  | case1 depths behind =>
    intro u hu
    rw [PeelLayer_nil] at hu
    exact Or.inl hu
  | case2 iT rest depths behind s ih =>
    intro u hu
    rw [PeelLayer_cons] at hu
    rcases ih u hu with h | ⟨s', hs', hr⟩
    · rcases peelStep_mem_behind tris fe ld iT rest depths behind u h with
        ⟨hmem, _⟩ | ⟨i, hn, _, _⟩
      · exact Or.inl hmem
      · exact Or.inr ⟨iT, List.mem_cons_self iT rest,
          ReachAdj.step iT iT u i (ReachAdj.refl iT) hn⟩
    · rcases peelStep_mem_stack tris fe ld iT rest depths behind s' hs' with
        hmem | ⟨i, hn, _, _⟩
      · exact Or.inr ⟨s', List.mem_cons_of_mem iT hmem, hr⟩
      · refine Or.inr ⟨iT, List.mem_cons_self iT rest, ?_⟩
        exact reachAdj_trans (ReachAdj.step iT iT s' i (ReachAdj.refl iT) hn) hr

theorem PeelLayerOv_reach (tris : List Triangle) (fe : Finset Edge)
    (ov : List (Edge × ℕ)) (ld : ℕ) (stack depths : List ℕ)
    (behind : Finset (ℕ × ℕ)) :
    ∀ k, dget (PeelLayerOv tris fe ov ld stack depths behind).1 k = dget depths k ∨
      ∃ s ∈ stack, ReachAdj tris s k := by
  induction stack, depths, behind using PeelLayerOv.induct tris fe ov ld with
  | case1 depths behind =>
    intro k
    exact Or.inl (by rw [PeelLayerOv_nil])
  | case2 iT rest depths behind s ih =>
    intro k
    rw [PeelLayerOv_cons]
    rcases ih k with h | ⟨s', hs', hr⟩
    · rcases dget_set_cases depths iT ld k with h2 | ⟨rfl, _, _⟩
      · left
        show dget (PeelLayerOv tris fe ov ld s.1 s.2.1 s.2.2).1 k = dget depths k
        rw [← h2]
        exact h
      · exact Or.inr ⟨k, List.mem_cons_self k rest, ReachAdj.refl k⟩
    · rcases peelStepOv_mem_stack tris fe ov ld iT rest depths behind s' hs' with
        hmem | ⟨i, hn, _, _⟩
      · exact Or.inr ⟨s', List.mem_cons_of_mem iT hmem, hr⟩
      · refine Or.inr ⟨iT, List.mem_cons_self iT rest, ?_⟩
        exact reachAdj_trans (ReachAdj.step iT iT s' i (ReachAdj.refl iT) hn) hr

theorem PeelLayerOv_behind_reach (tris : List Triangle) (fe : Finset Edge)
    (ov : List (Edge × ℕ)) (ld : ℕ) (stack depths : List ℕ)
    (behind : Finset (ℕ × ℕ)) :
    ∀ p ∈ (PeelLayerOv tris fe ov ld stack depths behind).2,
      p ∈ behind ∨ ∃ s ∈ stack, ReachAdj tris s p.1 := by
  induction stack, depths, behind using PeelLayerOv.induct tris fe ov ld with
  | case1 depths behind =>
    intro p hp
    rw [PeelLayerOv_nil] at hp
    exact Or.inl hp
  | case2 iT rest depths behind s ih =>
    intro p hp
    rw [PeelLayerOv_cons] at hp
    rcases ih p hp with h | ⟨s', hs', hr⟩
    · rcases peelStepOv_mem_behind tris fe ov ld iT rest depths behind p h with
        ⟨hmem, _⟩ | ⟨i, hn, _, _, _⟩
      · exact Or.inl hmem
      · exact Or.inr ⟨iT, List.mem_cons_self iT rest,
          ReachAdj.step iT iT p.1 i (ReachAdj.refl iT) hn⟩
    · rcases peelStepOv_mem_stack tris fe ov ld iT rest depths behind s' hs' with
        hmem | ⟨i, hn, _, _⟩
      · exact Or.inr ⟨s', List.mem_cons_of_mem iT hmem, hr⟩
      · refine Or.inr ⟨iT, List.mem_cons_self iT rest, ?_⟩
        exact reachAdj_trans (ReachAdj.step iT iT s' i (ReachAdj.refl iT) hn) hr

/-- Unfolding of one round of the no-overlap depth-calculation loop. -/
theorem calcGo_eq (tris : List Triangle) (fe : Finset Edge) (seeds : List ℕ)
    (ld : ℕ) (depths : List ℕ) :
    CalculateTriangleDepthsGo tris fe seeds ld depths =
      if (PeelLayer tris fe ld seeds depths ∅).2.sort (· ≤ ·) = []
      then (PeelLayer tris fe ld seeds depths ∅).1
      else CalculateTriangleDepthsGo tris fe
        ((PeelLayer tris fe ld seeds depths ∅).2.sort (· ≤ ·)) (ld + 1)
        (PeelLayer tris fe ld seeds depths ∅).1 := by
  rw [CalculateTriangleDepthsGo]
  split <;> rfl

/-- Unfolding of one round of the overlap-aware depth-calculation loop. -/
theorem calcOvGo_eq (tris : List Triangle) (fe : Finset Edge)
    (ov : List (Edge × ℕ)) (seeds : List ℕ) (sbd : Finset (ℕ × ℕ))
    (ld deepest : ℕ) (depths : List ℕ) :
    CalculateTriangleDepthsOvGo tris fe ov seeds sbd ld deepest depths =
      if (((((sbd.filter (fun p => p.1 ≠ ld)) ∪
              (PeelLayerOv tris fe ov ld seeds depths ∅).2.image
                (fun p => (p.2, p.1))).filter
            (fun p => p.1 = ld + 1)).image (fun p => p.2)).sort (· ≤ ·) = [] ∧
          max deepest ((PeelLayerOv tris fe ov ld seeds depths ∅).2.sup
            (fun p => p.2)) ≤ ld + 1)
      then (PeelLayerOv tris fe ov ld seeds depths ∅).1
      else CalculateTriangleDepthsOvGo tris fe ov
        ((((((sbd.filter (fun p => p.1 ≠ ld)) ∪
              (PeelLayerOv tris fe ov ld seeds depths ∅).2.image
                (fun p => (p.2, p.1))).filter
            (fun p => p.1 = ld + 1)).image (fun p => p.2)).sort (· ≤ ·)))
        ((sbd.filter (fun p => p.1 ≠ ld)) ∪
          (PeelLayerOv tris fe ov ld seeds depths ∅).2.image (fun p => (p.2, p.1)))
        (ld + 1)
        (max deepest ((PeelLayerOv tris fe ov ld seeds depths ∅).2.sup (fun p => p.2)))
        (PeelLayerOv tris fe ov ld seeds depths ∅).1 := by
  rw [CalculateTriangleDepthsOvGo]
  split <;> rfl

theorem calcGo_length (tris : List Triangle) (fe : Finset Edge)
    (seeds : List ℕ) (ld : ℕ) (depths : List ℕ) :
    (CalculateTriangleDepthsGo tris fe seeds ld depths).length = depths.length := by
  induction seeds, ld, depths using CalculateTriangleDepthsGo.induct tris fe with
  | case1 seeds ld depths r seeds1 h =>
    rw [calcGo_eq, if_pos h]
    exact PeelLayer_length tris fe ld seeds depths ∅
  | case2 seeds ld depths r seeds1 h ih =>
    rw [calcGo_eq, if_neg h]
    rw [ih]
    exact PeelLayer_length tris fe ld seeds depths ∅

theorem calcOvGo_length (tris : List Triangle) (fe : Finset Edge)
    (ov : List (Edge × ℕ)) (seeds : List ℕ) (sbd : Finset (ℕ × ℕ))
    (ld deepest : ℕ) (depths : List ℕ) :
    (CalculateTriangleDepthsOvGo tris fe ov seeds sbd ld deepest depths).length
      = depths.length := by
  induction seeds, sbd, ld, deepest, depths
    using CalculateTriangleDepthsOvGo.induct tris fe ov with
  | case1 seeds sbd ld deepest depths r sbd1 deepest1 seeds1 h =>
    rw [calcOvGo_eq, if_pos h]
    exact PeelLayerOv_length tris fe ov ld seeds depths ∅
  | case2 seeds sbd ld deepest depths r sbd1 deepest1 seeds1 h ih =>
    rw [calcOvGo_eq, if_neg h]
    rw [ih]
    exact PeelLayerOv_length tris fe ov ld seeds depths ∅

theorem calcGo_reach (tris : List Triangle) (fe : Finset Edge)
    (seeds : List ℕ) (ld : ℕ) (depths : List ℕ) :
    ∀ k, dget (CalculateTriangleDepthsGo tris fe seeds ld depths) k = dget depths k ∨
      ∃ s ∈ seeds, ReachAdj tris s k := by
  induction seeds, ld, depths using CalculateTriangleDepthsGo.induct tris fe with
  | case1 seeds ld depths r seeds1 h =>
    intro k
    rw [calcGo_eq, if_pos h]
    exact PeelLayer_reach tris fe ld seeds depths ∅ k
  | case2 seeds ld depths r seeds1 h ih =>
    intro k
    rw [calcGo_eq, if_neg h]
    rcases ih k with heq | ⟨s1, hs1, hr⟩
    · rcases PeelLayer_reach tris fe ld seeds depths ∅ k with heq2 | hreach
      · exact Or.inl (heq.trans heq2)
      · exact Or.inr hreach
    · have hs1' : s1 ∈ (PeelLayer tris fe ld seeds depths ∅).2 :=
        (Finset.mem_sort (α := ℕ) (· ≤ ·)).mp hs1
      rcases PeelLayer_behind_reach tris fe ld seeds depths ∅ s1 hs1' with
        hmem | ⟨s0, hs0, hr0⟩
      · exact absurd hmem (Finset.not_mem_empty s1)
      · exact Or.inr ⟨s0, hs0, reachAdj_trans hr0 hr⟩

theorem calcOvGo_reach (tris : List Triangle) (fe : Finset Edge)
    (ov : List (Edge × ℕ)) (seed : ℕ) (seeds : List ℕ) (sbd : Finset (ℕ × ℕ))
    (ld deepest : ℕ) (depths : List ℕ)
    (hseeds : ∀ s ∈ seeds, ReachAdj tris seed s)
    (hsbd : ∀ p ∈ sbd, ReachAdj tris seed p.2) :
    ∀ k, dget (CalculateTriangleDepthsOvGo tris fe ov seeds sbd ld deepest depths) k
        = dget depths k ∨ ReachAdj tris seed k := by
  induction seeds, sbd, ld, deepest, depths
    using CalculateTriangleDepthsOvGo.induct tris fe ov with
  | case1 seeds sbd ld deepest depths r sbd1 deepest1 seeds1 h =>
    intro k
    rw [calcOvGo_eq, if_pos h]
    rcases PeelLayerOv_reach tris fe ov ld seeds depths ∅ k with heq | ⟨s, hs, hr⟩
    · exact Or.inl heq
    · exact Or.inr (reachAdj_trans (hseeds s hs) hr)
  | case2 seeds sbd ld deepest depths r sbd1 deepest1 seeds1 h ih =>
    intro k
    have hsbd1 : ∀ p ∈ sbd1, ReachAdj tris seed p.2 := by
      intro p hp
      rcases Finset.mem_union.mp hp with hmem | hmem
      · exact hsbd p (Finset.mem_filter.mp hmem).1
      · obtain ⟨q, hq, hqe⟩ := Finset.mem_image.mp hmem
        rcases PeelLayerOv_behind_reach tris fe ov ld seeds depths ∅ q hq with
          hq0 | ⟨s0, hs0, hr0⟩
        · exact absurd hq0 (Finset.not_mem_empty q)
        · rw [← hqe]
          exact reachAdj_trans (hseeds s0 hs0) hr0
    have hseeds1 : ∀ s1 ∈ seeds1, ReachAdj tris seed s1 := by
      intro s1 hs1
      have hs1' : s1 ∈ (sbd1.filter (fun p => p.1 = ld + 1)).image (fun p => p.2) :=
        (Finset.mem_sort (α := ℕ) (· ≤ ·)).mp hs1
      obtain ⟨q, hq, hqe⟩ := Finset.mem_image.mp hs1'
      obtain ⟨hq1, _⟩ := Finset.mem_filter.mp hq
      exact hqe ▸ hsbd1 q hq1
    rw [calcOvGo_eq, if_neg h]
    rcases ih hseeds1 hsbd1 k with heq | hr
    · rcases PeelLayerOv_reach tris fe ov ld seeds depths ∅ k with heq2 | ⟨s, hs, hr2⟩
      · exact Or.inl (heq.trans heq2)
      · exact Or.inr (reachAdj_trans (hseeds s hs) hr2)
    · exact Or.inr hr

/-! ## Relating the two peelers when the overlap map is empty -/

theorem image_erase_pair (bS : Finset ℕ) (iT ld : ℕ) :
    mapEraseKey (bS.image (fun u => (u, ld + 1))) iT =
      (bS.erase iT).image (fun u => (u, ld + 1)) := by
  ext p
  simp only [mapEraseKey, Finset.mem_filter, Finset.mem_image, Finset.mem_erase]
  constructor
  · rintro ⟨⟨u, hu, rfl⟩, hne⟩
    exact ⟨u, ⟨by simpa using hne, hu⟩, rfl⟩
  · rintro ⟨u, ⟨hne, hu⟩, rfl⟩
    exact ⟨⟨u, hu, rfl⟩, by simpa using hne⟩

theorem upsert_insert_pair (bS : Finset ℕ) (iN ld : ℕ) :
    mapUpsert (bS.image (fun u => (u, ld + 1))) iN (ld + 1) =
      (insert iN bS).image (fun u => (u, ld + 1)) := by
  ext p
  simp only [mapUpsert, Finset.mem_insert, Finset.mem_filter, Finset.mem_image]
  constructor
  · rintro (rfl | ⟨⟨u, hu, rfl⟩, hne⟩)
    · exact ⟨iN, Or.inl rfl, rfl⟩
    · exact ⟨u, Or.inr hu, rfl⟩
  · rintro ⟨u, rfl | hu, rfl⟩
    · exact Or.inl rfl
    · rcases eq_or_ne u iN with rfl | hne
      · exact Or.inl rfl
      · exact Or.inr ⟨⟨u, hu, rfl⟩, by simpa using hne⟩

theorem peelNbrStep_ov_rel (fe : Finset Edge) (ld : ℕ) (depths : List ℕ)
    (t : Triangle) (i : Fin 3) (stack : List ℕ) (bS : Finset ℕ) :
    peelNbrStepOv fe [] ld depths t i (stack, bS.image (fun u => (u, ld + 1))) =
      ((peelNbrStep fe ld depths t i (stack, bS)).1,
        (peelNbrStep fe ld depths t i (stack, bS)).2.image (fun u => (u, ld + 1))) := by
  rcases hnbr : t.nbr (opoNbr i) with _ | iN
  · simp only [peelNbrStepOv, peelNbrStep, hnbr]
  · simp only [peelNbrStepOv, peelNbrStep, hnbr]
    by_cases h1 : dget depths iN ≤ ld
    · rw [if_pos h1, if_pos h1]
    · rw [if_neg h1, if_neg h1]
      by_cases h2 : oppositeEdge t i ∈ fe
      · rw [if_pos h2, if_pos h2]
        simp only [List.lookup]
        rw [upsert_insert_pair]
      · rw [if_neg h2, if_neg h2]

theorem peelStep_ov_rel (tris : List Triangle) (fe : Finset Edge)
    (ld iT : ℕ) (rest depths : List ℕ) (bS : Finset ℕ) :
    peelStepOv tris fe [] ld iT rest depths (bS.image (fun u => (u, ld + 1))) =
      ((peelStep tris fe ld iT rest depths bS).1,
        (peelStep tris fe ld iT rest depths bS).2.1,
        (peelStep tris fe ld iT rest depths bS).2.2.image (fun u => (u, ld + 1))) := by
  unfold peelStepOv peelStep
  simp only
  rw [image_erase_pair]
  rw [show (rest, (bS.erase iT).image (fun u => (u, ld + 1))) =
    ((rest, bS.erase iT).1, (rest, bS.erase iT).2.image (fun u => (u, ld + 1))) from rfl]
  rw [peelNbrStep_ov_rel, peelNbrStep_ov_rel, peelNbrStep_ov_rel]

/-- With an empty overlap map, the overlap-aware peeler computes the same
depths as the set-returning peeler, and its behind-boundary map is the
set-returning behind-boundary tagged with target depth `layerDepth + 1`. -/
theorem PeelLayer_ov_rel (tris : List Triangle) (fe : Finset Edge) (ld : ℕ)
    (stack depths : List ℕ) (bS : Finset ℕ) :
    PeelLayerOv tris fe [] ld stack depths (bS.image (fun u => (u, ld + 1))) =
      ((PeelLayer tris fe ld stack depths bS).1,
        (PeelLayer tris fe ld stack depths bS).2.image (fun u => (u, ld + 1))) := by
  induction stack, depths, bS using PeelLayer.induct tris fe ld with
  | case1 depths behind =>
    rw [PeelLayer_nil, PeelLayerOv_nil]
  | case2 iT rest depths behind s ih =>
    rw [PeelLayer_cons, PeelLayerOv_cons, peelStep_ov_rel]
    exact ih

theorem sort_nil_iff (s : Finset ℕ) : s.sort (· ≤ ·) = [] ↔ s = ∅ := by
  constructor
  · intro h
    apply Finset.card_eq_zero.mp
    rw [← Finset.length_sort (· ≤ ·), h]
    rfl
  · rintro rfl
    exact Finset.sort_empty _

/-- With an empty overlap map, the overlap-aware depth-calculation loop
coincides with the no-overlap loop, provided all pending recorded seeds sit at
depths `≤ layerDepth` (and are therefore never read again) and the deepest
recorded target does not exceed the layer depth. -/
theorem calc_ov_rel (tris : List Triangle) (fe : Finset Edge) :
    ∀ (seeds : List ℕ) (ld : ℕ) (depths : List ℕ) (sbd : Finset (ℕ × ℕ))
      (deepest : ℕ), (∀ p ∈ sbd, p.1 ≤ ld) → deepest ≤ ld →
    CalculateTriangleDepthsOvGo tris fe [] seeds sbd ld deepest depths =
      CalculateTriangleDepthsGo tris fe seeds ld depths := by
  intro seeds ld depths
  induction seeds, ld, depths using CalculateTriangleDepthsGo.induct tris fe with
  | case1 seeds ld depths r seeds1 h =>
    intro sbd deepest hsbd hdeepest
    have hrel := PeelLayer_ov_rel tris fe ld seeds depths ∅
    rw [show ((∅ : Finset ℕ).image (fun u => (u, ld + 1))) = (∅ : Finset (ℕ × ℕ))
      from by simp] at hrel
    have hbb : (PeelLayerOv tris fe [] ld seeds depths ∅).2 =
        (PeelLayer tris fe ld seeds depths ∅).2.image (fun u => (u, ld + 1)) := by
      rw [hrel]
    have hr1 : (PeelLayerOv tris fe [] ld seeds depths ∅).1 =
        (PeelLayer tris fe ld seeds depths ∅).1 := by
      rw [hrel]
    have hempty : (PeelLayer tris fe ld seeds depths ∅).2 = ∅ :=
      (sort_nil_iff _).mp h
    have hfil : ((sbd.filter (fun p => p.1 ≠ ld)) ∪
        (PeelLayerOv tris fe [] ld seeds depths ∅).2.image
          (fun p => (p.2, p.1))).filter (fun p => p.1 = ld + 1) = ∅ := by
      apply Finset.filter_eq_empty_iff.mpr
      intro p hp
      rcases Finset.mem_union.mp hp with hm | hm
      · have := hsbd p (Finset.mem_filter.mp hm).1
        omega
      · rw [hbb, hempty] at hm
        simp at hm
    have hguard : (((((sbd.filter (fun p => p.1 ≠ ld)) ∪
          (PeelLayerOv tris fe [] ld seeds depths ∅).2.image
            (fun p => (p.2, p.1))).filter
          (fun p => p.1 = ld + 1)).image (fun p => p.2)).sort (· ≤ ·) = [] ∧
        max deepest ((PeelLayerOv tris fe [] ld seeds depths ∅).2.sup
          (fun p => p.2)) ≤ ld + 1) := by
      constructor
      · rw [hfil]
        simp [Finset.sort_empty]
      · rw [hbb, hempty]
        simp only [Finset.image_empty, Finset.sup_empty]
        have hmax : max deepest ⊥ = deepest := by simp
        rw [hmax]
        omega
    rw [calcGo_eq, if_pos h, calcOvGo_eq, if_pos hguard]
    exact hr1
  | case2 seeds ld depths r seeds1 h ih =>
    intro sbd deepest hsbd hdeepest
    have hrel := PeelLayer_ov_rel tris fe ld seeds depths ∅
    rw [show ((∅ : Finset ℕ).image (fun u => (u, ld + 1))) = (∅ : Finset (ℕ × ℕ))
      from by simp] at hrel
    have hbb : (PeelLayerOv tris fe [] ld seeds depths ∅).2 =
        (PeelLayer tris fe ld seeds depths ∅).2.image (fun u => (u, ld + 1)) := by
      rw [hrel]
    have hr1 : (PeelLayerOv tris fe [] ld seeds depths ∅).1 =
        (PeelLayer tris fe ld seeds depths ∅).1 := by
      rw [hrel]
    have hsel : ((((sbd.filter (fun p => p.1 ≠ ld)) ∪
          (PeelLayerOv tris fe [] ld seeds depths ∅).2.image
            (fun p => (p.2, p.1))).filter
          (fun p => p.1 = ld + 1)).image (fun p => p.2)) =
        (PeelLayer tris fe ld seeds depths ∅).2 := by
      ext u
      constructor
      · intro hu
        obtain ⟨p, hp, rfl⟩ := Finset.mem_image.mp hu
        obtain ⟨hpmem, hpval⟩ := Finset.mem_filter.mp hp
        rcases Finset.mem_union.mp hpmem with hm | hm
        · have := hsbd p (Finset.mem_filter.mp hm).1
          omega
        · rw [hbb] at hm
          obtain ⟨q, hq, hqe⟩ := Finset.mem_image.mp hm
          obtain ⟨w, hw, rfl⟩ := Finset.mem_image.mp hq
          rw [← hqe]
          exact hw
      · intro hu
        apply Finset.mem_image.mpr
        refine ⟨(ld + 1, u), Finset.mem_filter.mpr ⟨Finset.mem_union_right _ ?_, rfl⟩, rfl⟩
        rw [hbb]
        exact Finset.mem_image.mpr ⟨(u, ld + 1),
          Finset.mem_image.mpr ⟨u, hu, rfl⟩, rfl⟩
    have hseedseq : (((((sbd.filter (fun p => p.1 ≠ ld)) ∪
          (PeelLayerOv tris fe [] ld seeds depths ∅).2.image
            (fun p => (p.2, p.1))).filter
          (fun p => p.1 = ld + 1)).image (fun p => p.2)).sort (· ≤ ·)) = seeds1 := by
      rw [hsel]
    have hguard2 : ¬(seeds1 = [] ∧
        max deepest ((PeelLayerOv tris fe [] ld seeds depths ∅).2.sup
          (fun p => p.2)) ≤ ld + 1) := fun hc => h hc.1
    rw [calcGo_eq, if_neg h, calcOvGo_eq, hseedseq, if_neg hguard2, hr1]
    apply ih
    · intro p hp
      rcases Finset.mem_union.mp hp with hm | hm
      · have := hsbd p (Finset.mem_filter.mp hm).1
        omega
      · rw [hbb] at hm
        obtain ⟨q, hq, hqe⟩ := Finset.mem_image.mp hm
        obtain ⟨w, hw, rfl⟩ := Finset.mem_image.mp hq
        rw [← hqe]
    · apply max_le (le_trans hdeepest (Nat.le_succ ld))
      rw [hbb]
      apply Finset.sup_le
      intro p hp
      obtain ⟨w, hw, rfl⟩ := Finset.mem_image.mp hp
      exact Nat.le_refl _

/-! ## `extractEdgesFromTriangles` (CDT.hpp:176-188) -/

/-- The three canonicalized edges of a triangle, as inserted by
`extractEdgesFromTriangles`. -/
def triangleEdges (t : Triangle) : Finset Edge :=
  {mkEdge t.v0 t.v1, mkEdge t.v1 t.v2, mkEdge t.v2 t.v0}

/-- `extractEdgesFromTriangles` (CDT.hpp:176-188): for every triangle insert
`Edge(v0,v1)`, `Edge(v1,v2)` and `Edge(v2,v0)` into an edge set. -/
def extractEdgesFromTriangles (tris : List Triangle) : Finset Edge :=
  tris.foldl
    (fun edges t =>
      insert (mkEdge t.v2 t.v0) (insert (mkEdge t.v1 t.v2)
        (insert (mkEdge t.v0 t.v1) edges)))
    ∅

theorem extractEdges_foldl_mem (tris : List Triangle) (acc : Finset Edge)
    (e : Edge) :
    (e ∈ tris.foldl
      (fun edges t =>
        insert (mkEdge t.v2 t.v0) (insert (mkEdge t.v1 t.v2)
          (insert (mkEdge t.v0 t.v1) edges)))
      acc) ↔ e ∈ acc ∨ ∃ t ∈ tris, e ∈ triangleEdges t := by
  induction tris generalizing acc with
  | nil => simp
  | cons t rest ih =>
    rw [List.foldl_cons, ih]
    simp only [triangleEdges, Finset.mem_insert, List.mem_cons,
      Finset.mem_singleton]
    aesop

/-- Membership characterization of `extractEdgesFromTriangles`. -/
theorem mem_extractEdges (tris : List Triangle) (e : Edge) :
    e ∈ extractEdgesFromTriangles tris ↔ ∃ t ∈ tris, e ∈ triangleEdges t := by
  rw [extractEdgesFromTriangles, extractEdges_foldl_mem]
  simp

/-! ## Duplicate handling (CDT.h:274-339, CDT.hpp:32-48) -/

/-- Information about removed duplicated vertices (CDT.h:33-37). -/
structure DuplicatesInfo where
  mapping : List ℕ
  duplicates : List ℕ
deriving DecidableEq, Repr

/-- The loop of `FindDuplicates` (CDT.h:290-303): walk the vertices with the
input counter `iIn` and the output counter `iOut`, keeping an associative map
`uniqueVerts` from coordinates to surviving position; a vertex whose
coordinates are already in the map contributes its stored position to
`mapping` and its input index to `duplicates`, a fresh vertex is mapped to
`iOut` (which is then incremented) and added to the map. -/
def findDuplicatesGo {α : Type} [DecidableEq α] :
    List α → List (α × ℕ) → ℕ → ℕ → List ℕ × List ℕ
  | [], _, _, _ => ([], [])
  | p :: rest, uniq, iIn, iOut =>
    match (uniq.find? (fun q => q.1 = p)).map (fun q => q.2) with
    | some j =>
      let r := findDuplicatesGo rest uniq (iIn + 1) iOut
      (j :: r.1, iIn :: r.2)
    | none =>
      let r := findDuplicatesGo rest ((p, iOut) :: uniq) (iIn + 1) (iOut + 1)
      (iOut :: r.1, r.2)

/-- `FindDuplicates` (CDT.h:274-305), generic over the vertex key type. -/
def FindDuplicates {α : Type} [DecidableEq α] (pts : List α) : DuplicatesInfo :=
  ⟨(findDuplicatesGo pts [] 0 0).1, (findDuplicatesGo pts [] 0 0).2⟩

/-- Modelled from the spec (§6): `removeDuplicates(vertices, duplicates)` is
an in-place removal, preserving order, of the elements at the duplicate
indices (`remove_at` of the absent `remove_at.hpp`, used by CDT.h:307-319). -/
def RemoveDuplicates {α : Type} (vertices : List α) (duplicates : List ℕ) :
    List α :=
  ((vertices.enum.filter (fun q => q.1 ∉ duplicates)).map (fun q => q.2))

/-- `RemapEdges` (CDT.hpp:32-39): rewrite both endpoints of every edge
through the mapping (re-canonicalizing, as the `Edge` constructor does). -/
def RemapEdges (edges : List Edge) (mapping : List ℕ) : List Edge :=
  edges.map (fun e => mkEdge (mapping.getD e.1 0) (mapping.getD e.2 0))

/-- `RemoveDuplicatesAndRemapEdges` (CDT.h:321-339): find duplicates, remove
them from the vertices, and remap the edges through the mapping. -/
def RemoveDuplicatesAndRemapEdges {α : Type} [DecidableEq α]
    (vertices : List α) (edges : List Edge) :
    List α × List Edge × DuplicatesInfo :=
  let di := FindDuplicates vertices
  (RemoveDuplicates vertices di.duplicates, RemapEdges edges di.mapping, di)

/-- First occurrences of a list, relative to an already-seen survivor list
`F`: the survivors contributed by `l` in order. -/
def keepFirstsNew {α : Type} [DecidableEq α] (F : List α) : List α → List α
  | [] => []
  | a :: l => if a ∈ F then keepFirstsNew F l else a :: keepFirstsNew (F ++ [a]) l

/-- Declarative mapping: each vertex goes to the position of its first
occurrence among the survivors accumulated so far. -/
def fdGoM {α : Type} [DecidableEq α] (F : List α) : List α → List ℕ
  | [] => []
  | p :: l =>
    if p ∈ F then F.findIdx (fun b => b = p) :: fdGoM F l
    else F.length :: fdGoM (F ++ [p]) l

/-- Declarative duplicates: input indices (counted from `iIn`) of vertices
already seen. -/
def fdGoD {α : Type} [DecidableEq α] (F : List α) (iIn : ℕ) : List α → List ℕ
  | [] => []
  | p :: l =>
    if p ∈ F then iIn :: fdGoD F (iIn + 1) l
    else fdGoD (F ++ [p]) (iIn + 1) l

theorem findIdx_append_left {α : Type} (p : α → Bool) (l1 l2 : List α)
    (h : ∃ x ∈ l1, p x = true) :
    (l1 ++ l2).findIdx p = l1.findIdx p := by
  induction l1 with
  | nil => simp at h
  | cons a l ih =>
    rw [List.cons_append, List.findIdx_cons, List.findIdx_cons]
    by_cases ha : p a
    · rw [ha]
      simp
    · rw [Bool.not_eq_true] at ha
      rw [ha]
      simp only [cond_false]
      obtain ⟨x, hx, hpx⟩ := h
      rcases List.mem_cons.mp hx with rfl | hx
      · rw [hpx] at ha
        exact absurd ha (by simp)
      · rw [ih ⟨x, hx, hpx⟩]

theorem findIdx_append_right {α : Type} (p : α → Bool) (l1 l2 : List α)
    (h : ∀ x ∈ l1, p x = false) :
    (l1 ++ l2).findIdx p = l1.length + l2.findIdx p := by
  induction l1 with
  | nil => simp
  | cons a l ih =>
    rw [List.cons_append, List.findIdx_cons, h a (List.mem_cons_self a l)]
    simp only [cond_false, List.length_cons]
    rw [ih (fun x hx => h x (List.mem_cons_of_mem a hx))]
    omega

theorem fdGoD_ge {α : Type} [DecidableEq α] :
    ∀ (l : List α) (F : List α) (iIn j : ℕ), j ∈ fdGoD F iIn l → iIn ≤ j := by
  intro l
  induction l with
  | nil => intro F iIn j h; simp [fdGoD] at h
  | cons p l ih =>
    intro F iIn j h
    rw [fdGoD] at h
    by_cases hp : p ∈ F
    · rw [if_pos hp] at h
      rcases List.mem_cons.mp h with rfl | h
      · exact le_refl j
      · exact le_trans (Nat.le_succ iIn) (ih F (iIn + 1) j h)
    · rw [if_neg hp] at h
      exact le_trans (Nat.le_succ iIn) (ih (F ++ [p]) (iIn + 1) j h)

/-- The `FindDuplicates` loop computes the declarative mapping and duplicate
list, given that the associative map agrees with the survivor list `F`. -/
theorem fdGo_eq {α : Type} [DecidableEq α] :
    ∀ (l : List α) (uniq : List (α × ℕ)) (iIn : ℕ) (F : List α),
    (∀ a : α, ((uniq.find? (fun q => q.1 = a)).map (fun q => q.2)) =
      if a ∈ F then some (F.findIdx (fun b => b = a)) else none) →
    findDuplicatesGo l uniq iIn F.length = (fdGoM F l, fdGoD F iIn l) := by
  intro l
  induction l with
  | nil => intro uniq iIn F hfind; rfl
  | cons p l ih =>
    intro uniq iIn F hfind
    rw [findDuplicatesGo, hfind p, fdGoM, fdGoD]
    by_cases hp : p ∈ F
    · rw [if_pos hp, if_pos hp, if_pos hp]
      simp only
      rw [ih uniq (iIn + 1) F hfind]
    · rw [if_neg hp, if_neg hp, if_neg hp]
      simp only
      have hlen : F.length + 1 = (F ++ [p]).length := by simp
      have hfind' : ∀ a : α,
          (((((p, F.length) :: uniq)).find? (fun q => q.1 = a)).map (fun q => q.2)) =
          if a ∈ F ++ [p] then some ((F ++ [p]).findIdx (fun b => b = a))
          else none := by
        intro a
        by_cases hap : p = a
        · subst hap
          rw [List.find?_cons_of_pos _ (by simp), if_pos (by simp)]
          have hidx : (F ++ [p]).findIdx (fun b => b = p) = F.length := by
            rw [findIdx_append_right]
            · rw [List.findIdx_cons]
              simp
            · intro x hx
              simp only [decide_eq_false_iff_not]
              exact fun hcontra => hp (hcontra ▸ hx)
          rw [hidx]
          rfl
        · rw [List.find?_cons_of_neg _ (by simpa using fun hc => hap hc), hfind a]
          have hmem : (a ∈ F ++ [p]) ↔ a ∈ F := by
            simp only [List.mem_append, List.mem_singleton]
            constructor
            · rintro (h | rfl)
              · exact h
              · exact absurd rfl hap
            · exact Or.inl
          by_cases haF : a ∈ F
          · rw [if_pos haF, if_pos (hmem.mpr haF)]
            congr 1
            rw [findIdx_append_left]
            exact ⟨a, haF, by simp⟩
          · rw [if_neg haF, if_neg (fun hc => haF (hmem.mp hc))]
      have := ih ((p, F.length) :: uniq) (iIn + 1) (F ++ [p]) hfind'
      rw [hlen, this]

/-- The declarative mapping sends each vertex to the index of its first
occurrence among all survivors. -/
theorem fdGoM_eq_map {α : Type} [DecidableEq α] :
    ∀ (l : List α) (F : List α),
    fdGoM F l = l.map (fun p => (F ++ keepFirstsNew F l).findIdx (fun b => b = p)) := by
  intro l
  induction l with
  | nil => intro F; rfl
  | cons p l ih =>
    intro F
    rw [fdGoM, keepFirstsNew, List.map_cons]
    by_cases hp : p ∈ F
    · rw [if_pos hp, if_pos hp]
      congr 1
      · rw [findIdx_append_left]
        exact ⟨p, hp, by simp⟩
      · exact ih F
    · rw [if_neg hp, if_neg hp]
      congr 1
      · rw [findIdx_append_right]
        · rw [List.findIdx_cons]
          simp
        · intro x hx
          simp only [decide_eq_false_iff_not]
          exact fun hc => hp (hc ▸ hx)
      · rw [ih (F ++ [p])]
        apply List.map_congr_left
        intro x _
        rw [List.append_assoc]
        rfl

/-- Removing the duplicate indices reported by the loop keeps exactly the
first occurrences. -/
theorem filter_fdGoD_eq_keepFirsts {α : Type} [DecidableEq α] :
    ∀ (l : List α) (F : List α) (iIn : ℕ),
    ((List.enumFrom iIn l).filter (fun q => q.1 ∉ fdGoD F iIn l)).map (fun q => q.2) =
      keepFirstsNew F l := by
  intro l
  induction l with
  | nil => intro F iIn; rfl
  | cons p l ih =>
    intro F iIn
    rw [show List.enumFrom iIn (p :: l) = (iIn, p) :: List.enumFrom (iIn + 1) l from rfl]
    rw [fdGoD, keepFirstsNew]
    by_cases hp : p ∈ F
    · rw [if_pos hp, if_pos hp]
      rw [List.filter_cons]
      have hcond : (decide ((iIn, p).1 ∉ iIn :: fdGoD F (iIn + 1) l)) = false := by
        simp
      rw [hcond]
      simp only [Bool.false_eq_true, if_false]
      have hfc : (List.enumFrom (iIn + 1) l).filter
            (fun q => q.1 ∉ iIn :: fdGoD F (iIn + 1) l) =
          (List.enumFrom (iIn + 1) l).filter (fun q => q.1 ∉ fdGoD F (iIn + 1) l) := by
        apply List.filter_congr
        intro q hq
        rcases q with ⟨j, x⟩
        have hj : iIn + 1 ≤ j := (List.mem_enumFrom hq).1
        simp only [List.mem_cons, decide_eq_decide]
        constructor
        · intro h
          exact fun hc => h (Or.inr hc)
        · intro h
          rintro (rfl | hc)
          · omega
          · exact h hc
      rw [hfc, ih F (iIn + 1)]
    · rw [if_neg hp, if_neg hp]
      rw [List.filter_cons]
      have hcond : (decide ((iIn, p).1 ∉ fdGoD (F ++ [p]) (iIn + 1) l)) = true := by
        simp only [decide_eq_true_eq]
        intro hc
        have := fdGoD_ge l (F ++ [p]) (iIn + 1) iIn hc
        omega
      rw [hcond]
      simp only [if_true, List.map_cons]
      rw [ih (F ++ [p]) (iIn + 1)]

/-- Membership in the declarative duplicate list: the input index addresses a
vertex that already occurred (in `F` or earlier in the list). -/
theorem mem_fdGoD {α : Type} [DecidableEq α] (d : α) :
    ∀ (l : List α) (F : List α) (iIn j : ℕ),
    j ∈ fdGoD F iIn l ↔
      (iIn ≤ j ∧ j - iIn < l.length ∧
        l.getD (j - iIn) d ∈ F ++ keepFirstsNew F (l.take (j - iIn))) := by
  intro l
  induction l with
  | nil =>
    intro F iIn j
    simp [fdGoD]
  | cons p l ih =>
    intro F iIn j
    rw [fdGoD]
    by_cases hp : p ∈ F
    · rw [if_pos hp]
      rcases eq_or_ne j iIn with rfl | hne
      · simp only [List.mem_cons, true_or, true_iff]
        refine ⟨le_refl j, by simp, ?_⟩
        rw [Nat.sub_self]
        simp only [List.take_zero, List.getD_cons_zero, keepFirstsNew,
          List.append_nil]
        exact hp
      · rw [List.mem_cons]
        have hiff := ih F (iIn + 1) j
        constructor
        · rintro (rfl | h)
          · exact absurd rfl hne
          · obtain ⟨h1, h2, h3⟩ := hiff.mp h
            have hk : j - iIn = (j - (iIn + 1)) + 1 := by omega
            refine ⟨by omega, by simp only [List.length_cons]; omega, ?_⟩
            rw [hk]
            simp only [List.getD_cons_succ, List.take_succ_cons, keepFirstsNew,
              if_pos hp]
            exact h3
        · rintro ⟨h1, h2, h3⟩
          right
          apply hiff.mpr
          have hk : j - iIn = (j - (iIn + 1)) + 1 := by omega
          rw [hk] at h3
          simp only [List.getD_cons_succ, List.take_succ_cons, keepFirstsNew,
            if_pos hp] at h3
          refine ⟨by omega, ?_, h3⟩
          simp only [List.length_cons] at h2
          omega
    · rw [if_neg hp]
      have hiff := ih (F ++ [p]) (iIn + 1) j
      rcases eq_or_ne j iIn with rfl | hne
      · constructor
        · intro h
          have := fdGoD_ge l (F ++ [p]) (j + 1) j h
          omega
        · rintro ⟨h1, h2, h3⟩
          rw [Nat.sub_self] at h3
          simp only [List.take_zero, keepFirstsNew, List.append_nil,
            List.getD_cons_zero] at h3
          exact absurd h3 hp
      · rw [hiff]
        have hk : j - iIn = (j - (iIn + 1)) + 1 ∨ j < iIn := by omega
        constructor
        · rintro ⟨h1, h2, h3⟩
          have hk2 : j - iIn = (j - (iIn + 1)) + 1 := by omega
          refine ⟨by omega, by simp only [List.length_cons]; omega, ?_⟩
          rw [hk2]
          simp only [List.getD_cons_succ, List.take_succ_cons, keepFirstsNew,
            if_neg hp]
          rw [List.append_assoc] at h3
          exact h3
        · rintro ⟨h1, h2, h3⟩
          have hk2 : j - iIn = (j - (iIn + 1)) + 1 := by omega
          rw [hk2] at h3
          simp only [List.getD_cons_succ, List.take_succ_cons, keepFirstsNew,
            if_neg hp] at h3
          refine ⟨by omega, by simp only [List.length_cons] at h2 ⊢; omega, ?_⟩
          rw [List.append_assoc]
          exact h3

theorem mem_keepFirstsNew {α : Type} [DecidableEq α] (a : α) :
    ∀ (l F : List α), a ∈ keepFirstsNew F l ↔ (a ∈ l ∧ a ∉ F) := by
  intro l
  induction l with
  | nil => intro F; simp [keepFirstsNew]
  | cons p l ih =>
    intro F
    rw [keepFirstsNew]
    by_cases hp : p ∈ F
    · rw [if_pos hp, ih F, List.mem_cons]
      constructor
      · rintro ⟨h1, h2⟩
        exact ⟨Or.inr h1, h2⟩
      · rintro ⟨rfl | h1, h2⟩
        · exact absurd hp h2
        · exact ⟨h1, h2⟩
    · rw [if_neg hp, List.mem_cons, ih (F ++ [p]), List.mem_cons]
      simp only [List.mem_append, List.mem_singleton]
      constructor
      · rintro (rfl | ⟨h1, h2⟩)
        · exact ⟨Or.inl rfl, hp⟩
        · exact ⟨Or.inr h1, fun hc => h2 (Or.inl hc)⟩
      · rintro ⟨rfl | h1, h2⟩
        · exact Or.inl rfl
        · rcases eq_or_ne a p with rfl | hne
          · exact Or.inl rfl
          · exact Or.inr ⟨h1, fun hc => hc.elim h2 hne⟩

theorem FindDuplicates_eq {α : Type} [DecidableEq α] (pts : List α) :
    FindDuplicates pts = ⟨fdGoM ([] : List α) pts, fdGoD ([] : List α) 0 pts⟩ := by
  unfold FindDuplicates
  have h := fdGo_eq pts [] 0 [] (by intro a; simp)
  rw [List.length_nil] at h
  rw [h]

/-- The mapping computed by `FindDuplicates` sends each vertex to the
position of its first occurrence among the survivors. -/
theorem FindDuplicates_mapping {α : Type} [DecidableEq α] (pts : List α) :
    (FindDuplicates pts).mapping =
      pts.map (fun p => (keepFirstsNew ([] : List α) pts).findIdx (fun b => b = p)) := by
  rw [FindDuplicates_eq]
  show fdGoM [] pts = _
  rw [fdGoM_eq_map]
  rfl

/-- Removing the reported duplicates keeps exactly the first occurrences. -/
theorem RemoveDuplicates_keepFirsts {α : Type} [DecidableEq α] (pts : List α) :
    RemoveDuplicates pts (FindDuplicates pts).duplicates =
      keepFirstsNew ([] : List α) pts := by
  rw [FindDuplicates_eq]
  show ((pts.enum.filter (fun q => q.1 ∉ fdGoD ([] : List α) 0 pts)).map (fun q => q.2)) = _
  rw [show pts.enum = List.enumFrom 0 pts from rfl]
  exact filter_fdGoD_eq_keepFirsts pts [] 0

/-- The duplicates reported by `FindDuplicates` are exactly the input indices
of vertices that occurred earlier in the input. -/
theorem FindDuplicates_duplicates_iff {α : Type} [DecidableEq α] (d : α)
    (pts : List α) (j : ℕ) :
    j ∈ (FindDuplicates pts).duplicates ↔
      (j < pts.length ∧ pts.getD j d ∈ pts.take j) := by
  rw [FindDuplicates_eq]
  show j ∈ fdGoD ([] : List α) 0 pts ↔ _
  rw [mem_fdGoD d pts [] 0 j]
  simp only [Nat.zero_le, true_and, Nat.sub_zero, List.nil_append]
  constructor
  · rintro ⟨h1, h2⟩
    exact ⟨h1, ((mem_keepFirstsNew _ _ _).mp h2).1⟩
  · rintro ⟨h1, h2⟩
    refine ⟨h1, (mem_keepFirstsNew _ _ _).mpr ⟨h2, by simp⟩⟩

/-! ## The `Randomized` insertion schedule (Triangulation.h:260-308) -/

/-- Modelled from the C++ standard library: the state initialization of
`std::mt19937` from a single seed (values are 32-bit, kept as `ℕ` reduced
modulo `2^32`); element `i` is
`1812433253 * (x[i-1] xor (x[i-1] >> 30)) + i`. -/
def mtInitFrom (prev i : ℕ) : ℕ → List ℕ
  | 0 => []
  | k + 1 =>
    let v := (1812433253 * (prev ^^^ (prev >>> 30)) + i) % 4294967296
    v :: mtInitFrom v (i + 1) k

/-- Modelled from the C++ standard library: the 624-word seeded state of
`std::mt19937`. -/
def mtInit (seed : ℕ) : List ℕ :=
  (seed % 4294967296) :: mtInitFrom (seed % 4294967296) 1 623

/-- Modelled from the C++ standard library: one in-place step of the
Mersenne-twister state regeneration. -/
def mtTwistStep (x : List ℕ) (i : ℕ) : List ℕ :=
  let y := (x.getD i 0 &&& 2147483648) ||| (x.getD ((i + 1) % 624) 0 &&& 2147483647)
  let v := (x.getD ((i + 397) % 624) 0) ^^^ (y >>> 1) ^^^
    (if y % 2 = 1 then 2567483615 else 0)
  x.set i v

/-- Modelled from the C++ standard library: the Mersenne-twister state
regeneration (sequential over all 624 words). -/
def mtTwist (x : List ℕ) : List ℕ := (List.range 624).foldl mtTwistStep x

/-- Modelled from the C++ standard library: the `std::mt19937` output
tempering. -/
def mtTemper (y0 : ℕ) : ℕ :=
  let y1 := y0 ^^^ (y0 >>> 11)
  let y2 := y1 ^^^ ((y1 <<< 7) &&& 2636928640)
  let y3 := y2 ^^^ ((y2 <<< 15) &&& 4022730752)
  y3 ^^^ (y3 >>> 18)

/-- Modelled from the C++ standard library: drawing one value from
`std::mt19937`.  The generator state is the 624-word state plus the position
of the next untwisted word (624 right after seeding). -/
def mtNext (g : List ℕ × ℕ) : ℕ × (List ℕ × ℕ) :=
  if 624 ≤ g.2 then
    let x := mtTwist g.1
    (mtTemper (x.getD 0 0), (x, 1))
  else (mtTemper (g.1.getD g.2 0), (g.1, g.2 + 1))

/-- The state of the function-local `static mt19937 g(9001)` of `randomCDT`
(Triangulation.h:262) right after construction: seeded with `9001`, never yet
drawn from.  Being `static`, this state is shared by every triangulation in
the process and is threaded through all `randomCDT` calls below. -/
def mtStart : List ℕ × ℕ := (mtInit 9001, 624)

/-- `randomCDT` (Triangulation.h:260-264): `g() % i`, with the static
generator state made explicit. -/
def randomCDT (g : List ℕ × ℕ) (i : ℕ) : ℕ × (List ℕ × ℕ) :=
  let r := mtNext g
  (r.1 % i, r.2)

/-- Swap two positions of a list. -/
def listSwap (a : List ℕ) (i j : ℕ) : List ℕ :=
  (a.set i (a.getD j 0)).set j (a.getD i 0)

/-- Modelled from the C++ standard library (libstdc++): the
`std::random_shuffle(first, last, rand)` algorithm used at
Triangulation.h:303: for `i` from `1` to `n - 1`, swap `a[i]` with
`a[rand(i + 1)]`. -/
def randomShuffle (a : List ℕ) (g : List ℕ × ℕ) : List ℕ × (List ℕ × ℕ) :=
  (List.range' 1 (a.length - 1)).foldl
    (fun acc i =>
      let r := randomCDT acc.2 (i + 1)
      (listSwap acc.1 i r.1, r.2))
    (a, g)

/-- The `VertexInsertionOrder::Randomized` branch of `insertVertices`
(Triangulation.h:297-306): build the index list
`[nExistingVerts, …, nExistingVerts + nNew - 1]`, shuffle it with `randomCDT`,
and call `insertVertex` on the indices in the shuffled order.  The returned
list is the schedule of `insertVertex` calls; the generator state is threaded
explicitly because the C++ generator is a `static` local. -/
def insertVerticesSchedule (nExistingVerts nNew : ℕ) (g : List ℕ × ℕ) :
    List ℕ × (List ℕ × ℕ) :=
  randomShuffle (List.range' nExistingVerts nNew) g

/-! ## `insertEdges` (Triangulation.h:310-329) -/

/-- Mutating operations performed by `insertEdges` on the triangulation. -/
inductive TriOp where
  | insertEdgeOp (e : Edge)
  | eraseDummiesOp
deriving DecidableEq, Repr

/-- `Triangulation::insertEdges` (Triangulation.h:315-329): for every edge of
the batch call `insertEdge` with both endpoints offset by `m_nTargetVerts`
(the `Edge` constructor canonicalizes), then call `eraseDummies()` once.  The
bodies of `insertEdge` and `eraseDummies` live in the absent
`Triangulation.hpp`; the definition records the sequence of calls. -/
def insertEdges (edges : List (ℕ × ℕ)) (nTargetVerts : ℕ) : List TriOp :=
  edges.map (fun e =>
    TriOp.insertEdgeOp (mkEdge (e.1 + nTargetVerts) (e.2 + nTargetVerts)))
    ++ [TriOp.eraseDummiesOp]

/-! ## Support lemmas for the claim theorems -/

theorem peelNbrStep_stack_mono (fe : Finset Edge) (ld : ℕ) (depths : List ℕ)
    (t : Triangle) (i : Fin 3) (sb : List ℕ × Finset ℕ) (v : ℕ)
    (hv : v ∈ sb.1) : v ∈ (peelNbrStep fe ld depths t i sb).1 :=
  (peelNbrStep_suffix fe ld depths t i sb).mem hv

theorem peelNbrStep_behind_mono (fe : Finset Edge) (ld : ℕ) (depths : List ℕ)
    (t : Triangle) (i : Fin 3) (sb : List ℕ × Finset ℕ) (u : ℕ)
    (hu : u ∈ sb.2) : u ∈ (peelNbrStep fe ld depths t i sb).2 := by
  unfold peelNbrStep
  rcases t.nbr (opoNbr i) with _ | iN
  · exact hu
  · simp only
    split
    · exact hu
    · split
      · exact Finset.mem_insert_of_mem hu
      · exact hu

theorem peelNbrStep_classify (fe : Finset Edge) (ld : ℕ) (depths : List ℕ)
    (t : Triangle) (i : Fin 3) (sb : List ℕ × Finset ℕ) (iN : ℕ)
    (hnbr : t.nbr (opoNbr i) = some iN) (hdeep : ld < dget depths iN) :
    (oppositeEdge t i ∈ fe → iN ∈ (peelNbrStep fe ld depths t i sb).2) ∧
    (oppositeEdge t i ∉ fe → iN ∈ (peelNbrStep fe ld depths t i sb).1) := by
  constructor
  · intro hfix
    simp only [peelNbrStep, hnbr, if_neg (Nat.not_le.mpr hdeep), if_pos hfix]
    exact Finset.mem_insert_self iN _
  · intro hfree
    simp only [peelNbrStep, hnbr, if_neg (Nat.not_le.mpr hdeep), if_neg hfree]
    exact List.mem_cons_self iN _

/-- One popped seed classifies each of its deep neighbors: behind the
boundary when the shared edge is fixed, onto the stack otherwise. -/
theorem peelStep_classify (tris : List Triangle) (fe : Finset Edge)
    (ld iT : ℕ) (rest depths : List ℕ) (behind : Finset ℕ) (i : Fin 3) (iN : ℕ)
    (hnbr : (tris.getD iT defaultTri).nbr (opoNbr i) = some iN)
    (hdeep : ld < dget (depths.set iT ld) iN) :
    (oppositeEdge (tris.getD iT defaultTri) i ∈ fe →
      iN ∈ (peelStep tris fe ld iT rest depths behind).2.2) ∧
    (oppositeEdge (tris.getD iT defaultTri) i ∉ fe →
      iN ∈ (peelStep tris fe ld iT rest depths behind).1) := by
  unfold peelStep
  simp only
  set t := tris.getD iT defaultTri with ht
  set depths1 := depths.set iT ld with hd1
  set sb0 : List ℕ × Finset ℕ := (rest, behind.erase iT) with hsb0
  fin_cases i
  · have h := peelNbrStep_classify fe ld depths1 t 0 sb0 iN hnbr hdeep
    constructor
    · intro hfix
      exact peelNbrStep_behind_mono fe ld depths1 t 2 _ iN
        (peelNbrStep_behind_mono fe ld depths1 t 1 _ iN (h.1 hfix))
    · intro hfree
      exact peelNbrStep_stack_mono fe ld depths1 t 2 _ iN
        (peelNbrStep_stack_mono fe ld depths1 t 1 _ iN (h.2 hfree))
  · have h := peelNbrStep_classify fe ld depths1 t 1
      (peelNbrStep fe ld depths1 t 0 sb0) iN hnbr hdeep
    constructor
    · intro hfix
      exact peelNbrStep_behind_mono fe ld depths1 t 2 _ iN (h.1 hfix)
    · intro hfree
      exact peelNbrStep_stack_mono fe ld depths1 t 2 _ iN (h.2 hfree)
  · exact peelNbrStep_classify fe ld depths1 t 2
      (peelNbrStep fe ld depths1 t 1 (peelNbrStep fe ld depths1 t 0 sb0)) iN hnbr hdeep

/-- Every seed on the stack is popped and assigned the layer depth. -/
theorem PeelLayer_seeds_assigned (tris : List Triangle) (fe : Finset Edge)
    (ld : ℕ) (stack depths : List ℕ) (behind : Finset ℕ) :
    ∀ v ∈ stack, v < depths.length →
      dget (PeelLayer tris fe ld stack depths behind).1 v = ld := by
  induction stack, depths, behind using PeelLayer.induct tris fe ld with
  | case1 depths behind =>
    intro v hv
    exact absurd hv (List.not_mem_nil v)
  | case2 iT rest depths behind s ih =>
    intro v hv hlen
    rw [PeelLayer_cons]
    rcases List.mem_cons.mp hv with rfl | hv
    · rcases PeelLayer_dget tris fe ld s.1 s.2.1 s.2.2 v with h | h
      · show dget (PeelLayer tris fe ld s.1 s.2.1 s.2.2).1 v = ld
        rw [h]
        exact dget_set_self hlen
      · exact h
    · have hvs : v ∈ s.1 :=
        (peelStep_stack_suffix tris fe ld iT rest depths behind).mem hv
      have hlen1 : v < (depths.set iT ld).length := by
        rw [List.length_set]
        exact hlen
      exact ih v hvs hlen1

/-- Every pair recorded by the overlap-aware peeler comes from a popped
triangle whose fixed opposite edge leads to the recorded neighbor, and its
target depth follows the overlap count of that edge. -/
theorem PeelLayerOv_behind_form (tris : List Triangle) (fe : Finset Edge)
    (ov : List (Edge × ℕ)) (ld : ℕ) (stack depths : List ℕ)
    (behind : Finset (ℕ × ℕ))
    (hb : ∀ p ∈ behind, ∃ iT : ℕ, ∃ i : Fin 3,
      (tris.getD iT defaultTri).nbr (opoNbr i) = some p.1 ∧
      oppositeEdge (tris.getD iT defaultTri) i ∈ fe ∧
      p.2 = (match List.lookup (oppositeEdge (tris.getD iT defaultTri) i) ov with
        | none => ld + 1
        | some cnt => ld + cnt + 1)) :
    ∀ p ∈ (PeelLayerOv tris fe ov ld stack depths behind).2,
      ∃ iT : ℕ, ∃ i : Fin 3,
        (tris.getD iT defaultTri).nbr (opoNbr i) = some p.1 ∧
        oppositeEdge (tris.getD iT defaultTri) i ∈ fe ∧
        p.2 = (match List.lookup (oppositeEdge (tris.getD iT defaultTri) i) ov with
          | none => ld + 1
          | some cnt => ld + cnt + 1) := by
  induction stack, depths, behind using PeelLayerOv.induct tris fe ov ld with
  | case1 depths behind =>
    rw [PeelLayerOv_nil]
    exact hb
  | case2 iT rest depths behind s ih =>
    rw [PeelLayerOv_cons]
    apply ih
    intro p hp
    rcases peelStepOv_mem_behind tris fe ov ld iT rest depths behind p hp with
      ⟨hmem, _⟩ | ⟨i, hn, hf, _, htgt⟩
    · exact hb p hmem
    · exact ⟨iT, i, hn, hf, htgt⟩

/-! ## Claim theorems -/

/-- C1: for every triangle array, fixed-edge set, seed stack, layer depth and
depth array, the no-overlap `PeelLayer` pops each seed triangle, sets its
depth to `layerDepth`, and for each of its three neighbors whose recorded
depth exceeds `layerDepth` classifies: across an edge in `fixedEdges`, the
neighbor is recorded in the returned behind-boundary seed set for the next
layer; across any other edge it is pushed onto the seed stack.  Traversal
never crosses a fixed edge: any triangle whose depth changes is reachable
from a seed through non-fixed edges only. -/
theorem C1_peelLayer_pops_sets_classifies (tris : List Triangle)
    (fe : Finset Edge) (ld iT : ℕ) (rest depths : List ℕ) (behind : Finset ℕ) :
    (PeelLayer tris fe ld (iT :: rest) depths behind =
      PeelLayer tris fe ld (peelStep tris fe ld iT rest depths behind).1
        (depths.set iT ld) (peelStep tris fe ld iT rest depths behind).2.2) ∧
    (∀ i : Fin 3, ∀ iN : ℕ,
      (tris.getD iT defaultTri).nbr (opoNbr i) = some iN →
      ld < dget (depths.set iT ld) iN →
      (oppositeEdge (tris.getD iT defaultTri) i ∈ fe →
        iN ∈ (peelStep tris fe ld iT rest depths behind).2.2) ∧
      (oppositeEdge (tris.getD iT defaultTri) i ∉ fe →
        iN ∈ (peelStep tris fe ld iT rest depths behind).1)) ∧
    (∀ v ∈ iT :: rest, v < depths.length →
      dget (PeelLayer tris fe ld (iT :: rest) depths behind).1 v = ld) ∧
    (∀ k, dget (PeelLayer tris fe ld (iT :: rest) depths behind).1 k
        = dget depths k ∨
      ∃ s ∈ iT :: rest, ReachNF tris fe s k) := by
  refine ⟨PeelLayer_cons tris fe ld iT rest depths behind, ?_, ?_, ?_⟩
  · intro i iN hnbr hdeep
    exact peelStep_classify tris fe ld iT rest depths behind i iN hnbr hdeep
  · exact PeelLayer_seeds_assigned tris fe ld (iT :: rest) depths behind
  · exact PeelLayer_no_crossing tris fe ld (iT :: rest) depths behind

/-- C1 witness: the theorem applied to a concrete two-triangle strip with a
fixed shared edge, all hypotheses discharged by computation. -/
theorem C1_witness :
    ((0 : ℕ) ∈ [0] ∧ (0 : ℕ) < [5, 5].length) ∧
    (PeelLayer [⟨0, 1, 2, some 1, none, none⟩, ⟨1, 2, 3, some 0, none, none⟩]
        {(1, 2)} 0 [0] [5, 5] ∅ =
      PeelLayer [⟨0, 1, 2, some 1, none, none⟩, ⟨1, 2, 3, some 0, none, none⟩]
        {(1, 2)} 0
        (peelStep [⟨0, 1, 2, some 1, none, none⟩, ⟨1, 2, 3, some 0, none, none⟩]
          {(1, 2)} 0 0 [] [5, 5] ∅).1
        ([5, 5].set 0 0)
        (peelStep [⟨0, 1, 2, some 1, none, none⟩, ⟨1, 2, 3, some 0, none, none⟩]
          {(1, 2)} 0 0 [] [5, 5] ∅).2.2) := by
  constructor
  · constructor
    · decide
    · decide
  · exact (C1_peelLayer_pops_sets_classifies
      [⟨0, 1, 2, some 1, none, none⟩, ⟨1, 2, 3, some 0, none, none⟩]
      {(1, 2)} 0 0 [] [5, 5] ∅).1

/-- C2: in the overlap-aware `PeelLayer`, a neighbor reached across a fixed
edge `e` with depth exceeding the layer depth is recorded with target depth
`layerDepth + overlapCount[e] + 1` when `overlapCount` has an entry for `e`
and `layerDepth + 1` when it has none; every pair in the returned
behind-boundary map carries a target depth of exactly this form, so crossing
an edge with overlap count `k` jumps `k + 1` layers. -/
theorem C2_overlap_target_depths (tris : List Triangle) (fe : Finset Edge)
    (ov : List (Edge × ℕ)) (ld : ℕ) :
    (∀ (depths : List ℕ) (t : Triangle) (i : Fin 3)
        (sb : List ℕ × Finset (ℕ × ℕ)) (iN : ℕ),
      t.nbr (opoNbr i) = some iN →
      ld < dget depths iN →
      oppositeEdge t i ∈ fe →
      peelNbrStepOv fe ov ld depths t i sb =
        (sb.1, mapUpsert sb.2 iN
          (match List.lookup (oppositeEdge t i) ov with
            | none => ld + 1
            | some cnt => ld + cnt + 1)) ∧
      (∀ cnt, List.lookup (oppositeEdge t i) ov = some cnt →
        (iN, ld + cnt + 1) ∈ (peelNbrStepOv fe ov ld depths t i sb).2) ∧
      (List.lookup (oppositeEdge t i) ov = none →
        (iN, ld + 1) ∈ (peelNbrStepOv fe ov ld depths t i sb).2)) ∧
    (∀ (stack depths : List ℕ),
      ∀ p ∈ (PeelLayerOv tris fe ov ld stack depths ∅).2,
        ∃ iT : ℕ, ∃ i : Fin 3,
          (tris.getD iT defaultTri).nbr (opoNbr i) = some p.1 ∧
          oppositeEdge (tris.getD iT defaultTri) i ∈ fe ∧
          p.2 = (match List.lookup (oppositeEdge (tris.getD iT defaultTri) i) ov with
            | none => ld + 1
            | some cnt => ld + cnt + 1)) := by
  constructor
  · intro depths t i sb iN hnbr hdeep hfix
    have hstep : peelNbrStepOv fe ov ld depths t i sb =
        (sb.1, mapUpsert sb.2 iN
          (match List.lookup (oppositeEdge t i) ov with
            | none => ld + 1
            | some cnt => ld + cnt + 1)) := by
      simp only [peelNbrStepOv, hnbr, if_neg (Nat.not_le.mpr hdeep), if_pos hfix]
    refine ⟨hstep, ?_, ?_⟩
    · intro cnt hcnt
      rw [hstep, hcnt]
      exact Finset.mem_insert_self _ _
    · intro hnone
      rw [hstep, hnone]
      exact Finset.mem_insert_self _ _
  · intro stack depths
    exact PeelLayerOv_behind_form tris fe ov ld stack depths ∅ (by simp)

/-- C2 witness: the theorem applied to a concrete triangle with a fixed edge
carrying overlap count `2`, hypotheses discharged by computation. -/
theorem C2_witness :
    ((⟨0, 1, 2, some 1, none, none⟩ : Triangle).nbr (opoNbr 0) = some 1 ∧
      (0 : ℕ) < dget [5, 5] 1 ∧
      oppositeEdge (⟨0, 1, 2, some 1, none, none⟩ : Triangle) 0 ∈
        ({(1, 2)} : Finset Edge)) ∧
    ((1, 0 + 2 + 1) ∈ (peelNbrStepOv {(1, 2)} [((1, 2), 2)] 0 [5, 5]
        ⟨0, 1, 2, some 1, none, none⟩ 0 ([], ∅)).2) := by
  refine ⟨⟨by decide, by decide, by decide⟩, ?_⟩
  exact (((C2_overlap_target_depths [] {(1, 2)} [((1, 2), 2)] 0).1
    [5, 5] ⟨0, 1, 2, some 1, none, none⟩ 0 ([], ∅) 1
    (by decide) (by decide) (by decide)).2.1 2 (by decide))

/-- Removing elements at a set of indices yields a subsequence of the input:
the survivors keep their relative order. -/
theorem enumFrom_filter_map_sublist {α : Type} (dups : List ℕ) :
    ∀ (l : List α) (n : ℕ),
    List.Sublist
      (((List.enumFrom n l).filter (fun q => q.1 ∉ dups)).map (fun q => q.2)) l := by
  intro l
  induction l with
  | nil => intro n; simp
  | cons a t ih =>
    intro n
    have he : List.enumFrom n (a :: t) = (n, a) :: List.enumFrom (n + 1) t := rfl
    rw [he, List.filter_cons]
    by_cases h : n ∈ dups
    · have hc : (decide ((n, a).1 ∉ dups)) = false := by simp [h]
      rw [hc]
      simp only [Bool.false_eq_true, if_false]
      exact (ih (n + 1)).cons a
    · have hc : (decide ((n, a).1 ∉ dups)) = true := by simp [h]
      rw [hc]
      simp only [if_true, List.map_cons]
      exact (ih (n + 1)).cons₂ a

/-- Reading an in-bounds position of a replicated list. -/
theorem dget_replicate (n a k : ℕ) (h : k < n) :
    dget (List.replicate n a) k = a := by
  simp [dget, List.getD_eq_getElem?_getD, List.getElem?_replicate, h]

/-- Overwriting one in-bounds position changes the multiset of elements by
removing the old value and adding the new one (stated additively). -/
theorem count_set_add (a : List ℕ) :
    ∀ (i x v : ℕ), i < a.length →
      (a.set i x).count v + (if a.getD i 0 = v then 1 else 0)
        = a.count v + (if x = v then 1 else 0) := by
  induction a with
  | nil => intro i x v h; simp at h
  | cons b t ih =>
    intro i x v h
    cases i with
    | zero =>
      simp only [List.set_cons_zero, List.count_cons, List.getD_cons_zero, beq_iff_eq]
      split_ifs <;> omega
    | succ i =>
      have hi : i < t.length := by
        simp only [List.length_cons] at h
        omega
      have hrec := ih i x v hi
      simp only [List.set_cons_succ, List.count_cons, List.getD_cons_succ, beq_iff_eq]
      split_ifs at hrec ⊢ <;> omega

/-- Swapping two in-bounds positions leaves all element counts unchanged. -/
theorem listSwap_count (a : List ℕ) (i j v : ℕ) (hi : i < a.length)
    (hj : j < a.length) :
    (listSwap a i j).count v = a.count v := by
  unfold listSwap
  have h1 := count_set_add a i (a.getD j 0) v hi
  have hlen : (a.set i (a.getD j 0)).length = a.length := List.length_set a i _
  have h2 := count_set_add (a.set i (a.getD j 0)) j (a.getD i 0) v
    (by rw [hlen]; exact hj)
  rcases eq_or_ne i j with rfl | hne
  · have h3 : (a.set i (a.getD i 0)).getD i 0 = a.getD i 0 :=
      dget_set_self hi
    rw [h3] at h2
    split_ifs at h1 h2 <;> omega
  · have h3 : (a.set i (a.getD j 0)).getD j 0 = a.getD j 0 :=
      dget_set_ne (Ne.symm hne)
    rw [h3] at h2
    split_ifs at h1 h2 <;> omega

/-- Swapping two in-bounds positions is a permutation. -/
theorem listSwap_perm (a : List ℕ) (i j : ℕ) (hi : i < a.length)
    (hj : j < a.length) :
    List.Perm (listSwap a i j) a :=
  List.perm_iff_count.mpr (fun v => listSwap_count a i j v hi hj)

/-- Every prefix of the `random_shuffle` fold permutes the working list. -/
theorem shuffle_fold_perm :
    ∀ (idxs : List ℕ) (acc : List ℕ × (List ℕ × ℕ)),
    (∀ i ∈ idxs, i < acc.1.length) →
    List.Perm
      ((idxs.foldl
        (fun acc i =>
          let r := randomCDT acc.2 (i + 1)
          (listSwap acc.1 i r.1, r.2)) acc).1) acc.1 := by
  intro idxs
  induction idxs with
  | nil => intro acc h; exact List.Perm.refl _
  | cons i rest ih =>
    intro acc h
    rw [List.foldl_cons]
    have hi : i < acc.1.length := h i (List.mem_cons_self i rest)
    have hj : (randomCDT acc.2 (i + 1)).1 < acc.1.length := by
      have hm : (randomCDT acc.2 (i + 1)).1 < i + 1 :=
        Nat.mod_lt _ (Nat.succ_pos i)
      omega
    have hperm1 : List.Perm (listSwap acc.1 i (randomCDT acc.2 (i + 1)).1) acc.1 :=
      listSwap_perm acc.1 i _ hi hj
    have hlen : (listSwap acc.1 i (randomCDT acc.2 (i + 1)).1).length
        = acc.1.length := hperm1.length_eq
    have h2 := ih (listSwap acc.1 i (randomCDT acc.2 (i + 1)).1,
        (randomCDT acc.2 (i + 1)).2)
      (by
        intro k hk
        show k < (listSwap acc.1 i (randomCDT acc.2 (i + 1)).1).length
        rw [hlen]
        exact h k (List.mem_cons_of_mem i hk))
    exact h2.trans hperm1

/-- `random_shuffle` returns a permutation of its input range. -/
theorem randomShuffle_perm (a : List ℕ) (g : List ℕ × ℕ) :
    List.Perm (randomShuffle a g).1 a := by
  have hidx : ∀ i ∈ List.range' 1 (a.length - 1), i < (a, g).1.length := by
    intro i hi
    rw [List.mem_range'_1] at hi
    show i < a.length
    omega
  exact shuffle_fold_perm (List.range' 1 (a.length - 1)) (a, g) hidx

/-- C4: the overlap-aware `CalculateTriangleDepths` peels layers in increasing
depth order: after peeling one layer, the seed stack of the next iteration
(at layer depth `ld + 1`) holds exactly the recorded future seeds whose target
depth equals `ld + 1`; the loop ends, returning the depth array of the peel,
exactly when that stack is empty and no recorded target depth exceeds
`ld + 1`, and otherwise continues with the updated `seedsByDepth` map, deepest
recorded target and incremented layer depth. -/
theorem C4_layer_order_and_termination (tris : List Triangle) (fe : Finset Edge)
    (ov : List (Edge × ℕ)) (seeds : List ℕ) (sbd : Finset (ℕ × ℕ))
    (ld deepest : ℕ) (depths : List ℕ) :
    (∀ u : ℕ,
      u ∈ (((((sbd.filter (fun p => p.1 ≠ ld)) ∪
            (PeelLayerOv tris fe ov ld seeds depths ∅).2.image
              (fun p => (p.2, p.1))).filter
          (fun p => p.1 = ld + 1)).image (fun p => p.2)).sort (· ≤ ·)) ↔
        (ld + 1, u) ∈ ((sbd.filter (fun p => p.1 ≠ ld)) ∪
          (PeelLayerOv tris fe ov ld seeds depths ∅).2.image
            (fun p => (p.2, p.1)))) ∧
    ((((((sbd.filter (fun p => p.1 ≠ ld)) ∪
            (PeelLayerOv tris fe ov ld seeds depths ∅).2.image
              (fun p => (p.2, p.1))).filter
          (fun p => p.1 = ld + 1)).image (fun p => p.2)).sort (· ≤ ·) = [] ∧
        max deepest ((PeelLayerOv tris fe ov ld seeds depths ∅).2.sup
          (fun p => p.2)) ≤ ld + 1) →
      CalculateTriangleDepthsOvGo tris fe ov seeds sbd ld deepest depths =
        (PeelLayerOv tris fe ov ld seeds depths ∅).1) ∧
    (¬ (((((sbd.filter (fun p => p.1 ≠ ld)) ∪
            (PeelLayerOv tris fe ov ld seeds depths ∅).2.image
              (fun p => (p.2, p.1))).filter
          (fun p => p.1 = ld + 1)).image (fun p => p.2)).sort (· ≤ ·) = [] ∧
        max deepest ((PeelLayerOv tris fe ov ld seeds depths ∅).2.sup
          (fun p => p.2)) ≤ ld + 1) →
      CalculateTriangleDepthsOvGo tris fe ov seeds sbd ld deepest depths =
        CalculateTriangleDepthsOvGo tris fe ov
          ((((((sbd.filter (fun p => p.1 ≠ ld)) ∪
                (PeelLayerOv tris fe ov ld seeds depths ∅).2.image
                  (fun p => (p.2, p.1))).filter
              (fun p => p.1 = ld + 1)).image (fun p => p.2)).sort (· ≤ ·)))
          ((sbd.filter (fun p => p.1 ≠ ld)) ∪
            (PeelLayerOv tris fe ov ld seeds depths ∅).2.image
              (fun p => (p.2, p.1)))
          (ld + 1)
          (max deepest ((PeelLayerOv tris fe ov ld seeds depths ∅).2.sup
            (fun p => p.2)))
          (PeelLayerOv tris fe ov ld seeds depths ∅).1) := by
  refine ⟨?_, ?_, ?_⟩
  · intro u
    constructor
    · intro hu
      have hu' := (Finset.mem_sort (α := ℕ) (· ≤ ·)).mp hu
      obtain ⟨p, hp, rfl⟩ := Finset.mem_image.mp hu'
      obtain ⟨hpm, hp1⟩ := Finset.mem_filter.mp hp
      rw [← hp1]
      exact hpm
    · intro hm
      apply (Finset.mem_sort (α := ℕ) (· ≤ ·)).mpr
      exact Finset.mem_image.mpr ⟨(ld + 1, u),
        Finset.mem_filter.mpr ⟨hm, rfl⟩, rfl⟩
  · intro h
    rw [calcOvGo_eq, if_pos h]
  · intro h
    rw [calcOvGo_eq, if_neg h]

/-- C4 witness: the theorem applied with empty triangles, seeds and map; the
exit guard holds and the loop returns the peeled depth array. -/
theorem C4_witness :
    ((((((∅ : Finset (ℕ × ℕ)).filter (fun p => p.1 ≠ 0)) ∪
            (PeelLayerOv [] ∅ [] 0 [] [] ∅).2.image
              (fun p => (p.2, p.1))).filter
          (fun p => p.1 = 0 + 1)).image (fun p => p.2)).sort (· ≤ ·) = [] ∧
        max 0 ((PeelLayerOv [] ∅ [] 0 [] [] ∅).2.sup (fun p => p.2)) ≤ 0 + 1) ∧
    CalculateTriangleDepthsOvGo [] ∅ [] [] ∅ 0 0 [] =
      (PeelLayerOv [] ∅ [] 0 [] [] ∅).1 := by
  have hg : ((((((∅ : Finset (ℕ × ℕ)).filter (fun p => p.1 ≠ 0)) ∪
          (PeelLayerOv [] ∅ [] 0 [] [] ∅).2.image
            (fun p => (p.2, p.1))).filter
        (fun p => p.1 = 0 + 1)).image (fun p => p.2)).sort (· ≤ ·) = [] ∧
      max 0 ((PeelLayerOv [] ∅ [] 0 [] [] ∅).2.sup (fun p => p.2)) ≤ 0 + 1) := by
    rw [PeelLayerOv_nil]
    exact ⟨(sort_nil_iff _).mpr (by simp), by simp⟩
  exact ⟨hg, (C4_layer_order_and_termination [] ∅ [] [] ∅ 0 0 []).2.1 hg⟩

/-- C5: `extractEdgesFromTriangles` returns exactly the set of canonicalized
edges of the triangles of its input; consequently, whenever every fixed edge
is an edge of at least one triangle (invariant 3), the fixed-edge set is a
subset of the extracted edge set. -/
theorem C5_extractEdges_exact_and_superset (tris : List Triangle)
    (fe : Finset Edge) :
    (∀ e : Edge, e ∈ extractEdgesFromTriangles tris ↔
      ∃ t ∈ tris, e ∈ triangleEdges t) ∧
    ((∀ e ∈ fe, ∃ t ∈ tris, e ∈ triangleEdges t) →
      fe ⊆ extractEdgesFromTriangles tris) := by
  refine ⟨fun e => mem_extractEdges tris e, fun h e he => ?_⟩
  exact (mem_extractEdges tris e).mpr (h e he)

/-- C5 witness: the subset conclusion on a concrete one-triangle state whose
single fixed edge is an edge of that triangle. -/
theorem C5_witness :
    (∀ e ∈ ({(0, 1)} : Finset Edge),
      ∃ t ∈ [(⟨0, 1, 2, none, none, none⟩ : Triangle)], e ∈ triangleEdges t) ∧
    ({(0, 1)} : Finset Edge) ⊆
      extractEdgesFromTriangles [(⟨0, 1, 2, none, none, none⟩ : Triangle)] := by
  refine ⟨by decide, ?_⟩
  exact (C5_extractEdges_exact_and_superset
    [(⟨0, 1, 2, none, none, none⟩ : Triangle)] {(0, 1)}).2 (by decide)

/-- C6: `FindDuplicates` returns a mapping of length `n` sending each original
index to the surviving position of its first occurrence (exactly equal
coordinates count as duplicates; the survivors are the first occurrences, in
order), together with the list of input indices of the duplicates; on the
input `[(0,0),(1,0),(0,0),(0,1)]` it returns mapping `[0,1,0,2]` and
duplicates `[2]`. -/
theorem C6_findDuplicates_mapping_duplicates {α : Type} [DecidableEq α]
    (pts : List α) (d : α) :
    (FindDuplicates pts).mapping.length = pts.length ∧
    (FindDuplicates pts).mapping
      = pts.map (fun p => (keepFirstsNew ([] : List α) pts).findIdx
          (fun b => b = p)) ∧
    RemoveDuplicates pts (FindDuplicates pts).duplicates
      = keepFirstsNew ([] : List α) pts ∧
    (∀ j, j ∈ (FindDuplicates pts).duplicates ↔
      j < pts.length ∧ pts.getD j d ∈ pts.take j) ∧
    FindDuplicates [((0 : ℤ), (0 : ℤ)), ((1 : ℤ), (0 : ℤ)), ((0 : ℤ), (0 : ℤ)),
        ((0 : ℤ), (1 : ℤ))]
      = ⟨[0, 1, 0, 2], [2]⟩ := by
  refine ⟨?_, FindDuplicates_mapping pts, RemoveDuplicates_keepFirsts pts,
    fun j => FindDuplicates_duplicates_iff d pts j, by decide⟩
  rw [FindDuplicates_mapping pts]
  simp

/-- C6 witness: the mapping-length consequence on the spec scenario input. -/
theorem C6_witness :
    (FindDuplicates [((0 : ℤ), (0 : ℤ)), ((1 : ℤ), (0 : ℤ)),
        ((0 : ℤ), (0 : ℤ)), ((0 : ℤ), (1 : ℤ))]).mapping.length
      = [((0 : ℤ), (0 : ℤ)), ((1 : ℤ), (0 : ℤ)), ((0 : ℤ), (0 : ℤ)),
        ((0 : ℤ), (1 : ℤ))].length :=
  (C6_findDuplicates_mapping_duplicates
    [((0 : ℤ), (0 : ℤ)), ((1 : ℤ), (0 : ℤ)), ((0 : ℤ), (0 : ℤ)),
      ((0 : ℤ), (1 : ℤ))] ((0 : ℤ), (0 : ℤ))).1

/-- C7: `RemoveDuplicatesAndRemapEdges` produces exactly the result of the
chain `FindDuplicates`, then `RemoveDuplicates` (order-preserving removal of
the duplicates, keeping the first occurrences as a subsequence of the input),
then `RemapEdges` (rewriting every edge endpoint through the mapping), and
returns that same `DuplicatesInfo`. -/
theorem C7_removeDuplicatesAndRemapEdges_chain {α : Type} [DecidableEq α]
    (vertices : List α) (edges : List Edge) :
    RemoveDuplicatesAndRemapEdges vertices edges =
      (RemoveDuplicates vertices (FindDuplicates vertices).duplicates,
        RemapEdges edges (FindDuplicates vertices).mapping,
        FindDuplicates vertices) ∧
    RemapEdges edges (FindDuplicates vertices).mapping =
      edges.map (fun e => mkEdge ((FindDuplicates vertices).mapping.getD e.1 0)
        ((FindDuplicates vertices).mapping.getD e.2 0)) ∧
    (RemoveDuplicatesAndRemapEdges vertices edges).1
      = keepFirstsNew ([] : List α) vertices ∧
    List.Sublist (RemoveDuplicatesAndRemapEdges vertices edges).1 vertices := by
  refine ⟨rfl, rfl, ?_, ?_⟩
  · show RemoveDuplicates vertices (FindDuplicates vertices).duplicates = _
    exact RemoveDuplicates_keepFirsts vertices
  · show List.Sublist
      (RemoveDuplicates vertices (FindDuplicates vertices).duplicates) vertices
    exact enumFrom_filter_map_sublist (FindDuplicates vertices).duplicates
      vertices 0

/-- C7 witness: the survivor list of the spec scenario is a subsequence of
its input vertices. -/
theorem C7_witness :
    List.Sublist
      (RemoveDuplicatesAndRemapEdges
        [((0 : ℤ), (0 : ℤ)), ((1 : ℤ), (0 : ℤ)), ((0 : ℤ), (0 : ℤ)),
          ((0 : ℤ), (1 : ℤ))] [(0, 3), (2, 1)]).1
      [((0 : ℤ), (0 : ℤ)), ((1 : ℤ), (0 : ℤ)), ((0 : ℤ), (0 : ℤ)),
        ((0 : ℤ), (1 : ℤ))] :=
  (C7_removeDuplicatesAndRemapEdges_chain
    [((0 : ℤ), (0 : ℤ)), ((1 : ℤ), (0 : ℤ)), ((0 : ℤ), (0 : ℤ)),
      ((0 : ℤ), (1 : ℤ))] [(0, 3), (2, 1)]).2.2.2

/-- C8: `insertEdges` performs one `insertEdge` call per batch edge, with both
user-space endpoints offset by `nTargetVerts`, and calls `eraseDummies`
exactly once, as the last operation after the whole batch. -/
theorem C8_insertEdges_offset_eraseDummies_once (edges : List (ℕ × ℕ))
    (nTargetVerts : ℕ) :
    insertEdges edges nTargetVerts =
      edges.map (fun e => TriOp.insertEdgeOp
        (mkEdge (e.1 + nTargetVerts) (e.2 + nTargetVerts)))
        ++ [TriOp.eraseDummiesOp] ∧
    (insertEdges edges nTargetVerts).count TriOp.eraseDummiesOp = 1 ∧
    (insertEdges edges nTargetVerts).getLast? = some TriOp.eraseDummiesOp ∧
    (∀ op ∈ insertEdges edges nTargetVerts, op = TriOp.eraseDummiesOp ∨
      ∃ e ∈ edges, op = TriOp.insertEdgeOp
        (mkEdge (e.1 + nTargetVerts) (e.2 + nTargetVerts))) := by
  refine ⟨rfl, ?_, ?_, ?_⟩
  · show (edges.map (fun e => TriOp.insertEdgeOp
        (mkEdge (e.1 + nTargetVerts) (e.2 + nTargetVerts)))
        ++ [TriOp.eraseDummiesOp]).count TriOp.eraseDummiesOp = 1
    rw [List.count_append]
    have h0 : (edges.map (fun e => TriOp.insertEdgeOp
        (mkEdge (e.1 + nTargetVerts) (e.2 + nTargetVerts)))).count
        TriOp.eraseDummiesOp = 0 := by
      apply List.count_eq_zero.mpr
      intro hmem
      obtain ⟨e, _, he⟩ := List.mem_map.mp hmem
      exact TriOp.noConfusion he
    rw [h0]
    decide
  · show (edges.map (fun e => TriOp.insertEdgeOp
        (mkEdge (e.1 + nTargetVerts) (e.2 + nTargetVerts)))
        ++ [TriOp.eraseDummiesOp]).getLast? = some TriOp.eraseDummiesOp
    rw [List.getLast?_concat]
  · intro op hop
    rcases List.mem_append.mp hop with hm | hm
    · obtain ⟨e, he, rfl⟩ := List.mem_map.mp hm
      exact Or.inr ⟨e, he, rfl⟩
    · exact Or.inl (List.mem_singleton.mp hm)

/-- C8 witness: the last operation of a concrete two-edge batch is the single
`eraseDummies` call. -/
theorem C8_witness :
    (0, 3) ∈ [((0 : ℕ), (3 : ℕ)), (2, 1)] ∧
    (insertEdges [(0, 3), (2, 1)] 3).getLast? = some TriOp.eraseDummiesOp ∧
    (insertEdges [(0, 3), (2, 1)] 3).count TriOp.eraseDummiesOp = 1 := by
  refine ⟨by decide, ?_, ?_⟩
  · exact (C8_insertEdges_offset_eraseDummies_once [(0, 3), (2, 1)] 3).2.2.1
  · exact (C8_insertEdges_offset_eraseDummies_once [(0, 3), (2, 1)] 3).2.1

/-- C9: both `CalculateTriangleDepths` overloads return one depth per input
triangle, start every depth at the maximum `LayerDepth` value
(`layerDepthMax`), and leave a triangle that the seed cannot reach through
neighbor traversal at that maximum value. -/
theorem C9_depths_length_init_unreached (tris : List Triangle)
    (fe : Finset Edge) (ov : List (Edge × ℕ)) (seed : ℕ) :
    (CalculateTriangleDepths tris fe seed).length = tris.length ∧
    (CalculateTriangleDepthsOv tris fe ov seed).length = tris.length ∧
    CalculateTriangleDepths tris fe seed =
      CalculateTriangleDepthsGo tris fe [seed] 0
        (List.replicate tris.length layerDepthMax) ∧
    CalculateTriangleDepthsOv tris fe ov seed =
      CalculateTriangleDepthsOvGo tris fe ov [seed] ∅ 0 0
        (List.replicate tris.length layerDepthMax) ∧
    (∀ k, k < tris.length → ReachAdj tris seed k ∨
      dget (CalculateTriangleDepths tris fe seed) k = layerDepthMax) ∧
    (∀ k, k < tris.length → ReachAdj tris seed k ∨
      dget (CalculateTriangleDepthsOv tris fe ov seed) k = layerDepthMax) := by
  refine ⟨?_, ?_, rfl, rfl, ?_, ?_⟩
  · show (CalculateTriangleDepthsGo tris fe [seed] 0
        (List.replicate tris.length layerDepthMax)).length = tris.length
    rw [calcGo_length]
    simp
  · show (CalculateTriangleDepthsOvGo tris fe ov [seed] ∅ 0 0
        (List.replicate tris.length layerDepthMax)).length = tris.length
    rw [calcOvGo_length]
    simp
  · intro k hk
    rcases calcGo_reach tris fe [seed] 0
        (List.replicate tris.length layerDepthMax) k with heq | ⟨s, hs, hr⟩
    · right
      have heq' : dget (CalculateTriangleDepths tris fe seed) k
          = dget (List.replicate tris.length layerDepthMax) k := heq
      rw [heq']
      exact dget_replicate tris.length layerDepthMax k hk
    · left
      rw [List.mem_singleton] at hs
      subst hs
      exact hr
  · intro k hk
    rcases calcOvGo_reach tris fe ov seed [seed] ∅ 0 0
        (List.replicate tris.length layerDepthMax)
        (by
          intro s hs
          rw [List.mem_singleton] at hs
          subst hs
          exact ReachAdj.refl s)
        (by
          intro p hp
          exact absurd hp (Finset.not_mem_empty p)) k with heq | hr
    · right
      have heq' : dget (CalculateTriangleDepthsOv tris fe ov seed) k
          = dget (List.replicate tris.length layerDepthMax) k := heq
      rw [heq']
      exact dget_replicate tris.length layerDepthMax k hk
    · exact Or.inl hr

/-- C9 witness: on a single isolated triangle, position `0` is either reached
by the seed or retains the maximum depth. -/
theorem C9_witness :
    (0 : ℕ) < [defaultTri].length ∧
    (ReachAdj [defaultTri] 0 0 ∨
      dget (CalculateTriangleDepths [defaultTri] ∅ 0) 0 = layerDepthMax) := by
  refine ⟨by decide, ?_⟩
  exact (C9_depths_length_init_unreached [defaultTri] ∅ [] 0).2.2.2.2.1 0
    (by decide)

/-- C10: the overlap-aware `CalculateTriangleDepths` with an empty
`overlapCount` map computes exactly the depth vector of the no-overlap
overload on the same seed, triangles and fixed edges. -/
theorem C10_empty_overlap_agrees (tris : List Triangle) (fe : Finset Edge)
    (seed : ℕ) :
    CalculateTriangleDepthsOv tris fe [] seed
      = CalculateTriangleDepths tris fe seed := by
  show CalculateTriangleDepthsOvGo tris fe [] [seed] ∅ 0 0
      (List.replicate tris.length layerDepthMax)
    = CalculateTriangleDepthsGo tris fe [seed] 0
      (List.replicate tris.length layerDepthMax)
  exact calc_ov_rel tris fe [seed] 0
    (List.replicate tris.length layerDepthMax) ∅ 0
    (by intro p hp; exact absurd hp (Finset.not_mem_empty p)) (le_refl 0)

/-- C3 (amended): under `Randomized` insertion order the schedule of
`insertVertex` calls is a pure function of the batch bounds and the state of
the process-global `static mt19937 g(9001)`: two instances given identical
inputs produce identical schedules whenever the generator is in the same
state when each run starts (as it is for the first run of each process), and
every run inserts exactly the requested batch of vertex indices (the schedule
is a permutation of `[nExistingVerts, nExistingVerts + nNew)`).  The original
claim, that any two runs with identical inputs coincide, fails: the `static`
generator state advances across runs (see the counterexample). -/
theorem C3_randomized_schedule_determinism (nExistingVerts nNew : ℕ)
    (g1 g2 : List ℕ × ℕ) (h : g1 = g2) :
    (insertVerticesSchedule nExistingVerts nNew g1).1
      = (insertVerticesSchedule nExistingVerts nNew g2).1 ∧
    List.Perm (insertVerticesSchedule nExistingVerts nNew g1).1
      (List.range' nExistingVerts nNew) := by
  subst h
  exact ⟨rfl, randomShuffle_perm (List.range' nExistingVerts nNew) g1⟩

/-- C3 witness: two runs both started at the freshly seeded generator state
schedule the batch `[3, 5)` identically, and as a permutation of it. -/
theorem C3_witness :
    mtStart = mtStart ∧
    ((insertVerticesSchedule 3 2 mtStart).1
        = (insertVerticesSchedule 3 2 mtStart).1 ∧
      List.Perm (insertVerticesSchedule 3 2 mtStart).1 (List.range' 3 2)) :=
  ⟨rfl, C3_randomized_schedule_determinism 3 2 mtStart mtStart rfl⟩

set_option maxRecDepth 100000 in
/-- C3 counterexample: the generator of `randomCDT` is `static`, so its state
survives across triangulation instances of one process.  Inserting the batch
of two vertices `[3, 4]` after three existing ones yields the schedule
`[3, 4]` on a first run but `[4, 3]` on a second identical run, refuting the
claim that any two instances with identical inputs produce identical
outputs. -/
theorem C3_counterexample :
    (insertVerticesSchedule 3 2 mtStart).1 = [3, 4] ∧
    (insertVerticesSchedule 3 2 (insertVerticesSchedule 3 2 mtStart).2).1
      = [4, 3] ∧
    ¬ ((insertVerticesSchedule 3 2 mtStart).1
        = (insertVerticesSchedule 3 2 (insertVerticesSchedule 3 2 mtStart).2).1) := by
  refine ⟨by decide, by decide, by decide⟩

end CDTSpec
